import Mathlib

/-!
Verification of the build-output resolution and dependency-tracing engine of
`next-bun-compile` (src/generate.ts).  The filesystem is modelled as a rose
tree of named entries; every fs primitive used by the source (existsSync,
readdirSync, statSync().isDirectory(), readFileSync, writeFileSync,
mkdirSync recursive) is given an explicit, executable semantics, with the
same failure behaviour (reads of missing files or directories fail, a file
blocking a directory creation fails, ...).  Stateful source functions are
embedded in a state-plus-exception monad that keeps the state reached at the
point of failure and records a log of every path written or created.
-/

namespace NextBunCompile

mutual
/-- A filesystem node: a regular file with string content, or a directory
with an ordered list of named entries (`readdirSync` enumerates in this
order). -/
inductive Node where
  | file (content : String)
  | dir (entries : Entries)
deriving DecidableEq

/-- Ordered directory entries (name/node pairs). -/
inductive Entries where
  | nil
  | cons (name : String) (node : Node) (rest : Entries)
deriving DecidableEq
end

/-- Look up a directory entry by name. -/
def Entries.find? : Entries → String → Option Node
  | .nil, _ => none
  | .cons n node rest, s => if n = s then some node else rest.find? s

/-- Replace the entry named `s` (first occurrence), or append it at the end
when absent — new directory entries appear last in `readdirSync` order. -/
def Entries.set : Entries → String → Node → Entries
  | .nil, s, v => .cons s v .nil
  | .cons n node rest, s, v =>
    if n = s then .cons n v rest else .cons n node (rest.set s v)

/-- The names of a directory's entries, in order. -/
def Entries.names : Entries → List String
  | .nil => []
  | .cons n _ rest => n :: rest.names

/-- Resolve a path (list of segments) to a node, if it exists. -/
def getNode : Node → List String → Option Node
  | n, [] => some n
  | .file _, _ :: _ => none
  | .dir es, s :: rest =>
    match es.find? s with
    | some n => getNode n rest
    | none => none

/-- `existsSync`. -/
def pathExists (t : Node) (p : List String) : Bool :=
  (getNode t p).isSome

/-- `statSync(p).isDirectory()` (false when the path does not exist; the
source only calls it on paths obtained from `readdirSync`). -/
def isDirAt (t : Node) (p : List String) : Bool :=
  match getNode t p with
  | some (.dir _) => true
  | _ => false

/-- `readFileSync`: fails on a missing path (ENOENT) and on a directory
(EISDIR). -/
def readFileAt (t : Node) (p : List String) : Except String String :=
  match getNode t p with
  | some (.file c) => .ok c
  | some (.dir _) => .error "EISDIR"
  | none => .error "ENOENT"

/-- `readdirSync`: fails on a missing path (ENOENT) and on a file
(ENOTDIR). -/
def readdirAt (t : Node) (p : List String) : Except String (List String) :=
  match getNode t p with
  | some (.dir es) => .ok es.names
  | some (.file _) => .error "ENOTDIR"
  | none => .error "ENOENT"

/-- `writeFileSync`: the parent directory must exist, and the target must not
be a directory; an existing file is overwritten. -/
def writeFileAt : Node → List String → String → Except String Node
  | .file _, [], _ => .error "EISDIR-root"
  | .dir _, [], _ => .error "EISDIR"
  | .file _, _ :: _, _ => .error "ENOTDIR"
  | .dir es, [s], c =>
    match es.find? s with
    | some (.dir _) => .error "EISDIR"
    | _ => .ok (.dir (es.set s (.file c)))
  | .dir es, s :: s' :: rest, c =>
    match es.find? s with
    | some n => do
      let n' ← writeFileAt n (s' :: rest) c
      .ok (.dir (es.set s n'))
    | none => .error "ENOENT"

/-- `mkdirSync(p, recursive)`: creates all missing directories along the
path; an existing directory is fine, a file anywhere on the path fails
(EEXIST / ENOTDIR). -/
def mkdirpAt : Node → List String → Except String Node
  | .file _, _ => .error "EEXIST"
  | .dir es, [] => .ok (.dir es)
  | .dir es, s :: rest =>
    match es.find? s with
    | some n => do
      let n' ← mkdirpAt n rest
      .ok (.dir (es.set s n'))
    | none => do
      let n' ← mkdirpAt (.dir .nil) rest
      .ok (.dir (es.set s n'))

/-! ## Path and string primitives

The source manipulates paths both as strings (`join`, `relative`,
`endsWith(".js")`, module specifiers) and hands them to the filesystem.
Paths here are segment lists; specifier strings are converted through
`path.join`-style normalisation (`.` and empty segments dropped, `..`
popping the previous segment, as for absolute paths).  All primitives are
structurally recursive so that concrete runs evaluate inside the kernel. -/

/-- JS `s.startsWith(p)`. -/
def strStartsWith (s p : String) : Bool := p.toList.isPrefixOf s.toList

/-- JS `s.endsWith(p)`. -/
def strEndsWith (s p : String) : Bool := p.toList.isSuffixOf s.toList

/-- JS `s.slice(n)` (used for fixed-length prefix stripping). -/
def strDrop (s : String) (n : Nat) : String := String.mk (s.toList.drop n)

/-- JS `s.split("/")` (at least one piece; empty pieces kept, as in JS). -/
def splitSlashL : List Char → List (List Char)
  | [] => [[]]
  | '/' :: t => [] :: splitSlashL t
  | c :: t =>
    match splitSlashL t with
    | h :: r => (c :: h) :: r
    | [] => [[c]]

def splitSlash (s : String) : List String := (splitSlashL s.toList).map String.mk

/-- JS `parts.join(sep)`. -/
def joinWith (sep : String) : List String → String
  | [] => ""
  | [s] => s
  | s :: rest => s ++ sep ++ joinWith sep rest

/-- Segments joined with `/`. -/
def joinSegs (l : List String) : String := joinWith "/" l

/-- `path.join`-style segment normalisation. -/
def normSegsAux : List String → List String → List String
  | acc, [] => acc.reverse
  | acc, s :: rest =>
    if s = "" ∨ s = "." then normSegsAux acc rest
    else if s = ".." then
      match acc with
      | [] => normSegsAux [] rest
      | _ :: acc' => normSegsAux acc' rest
    else normSegsAux (s :: acc) rest

def normSegs (l : List String) : List String := normSegsAux [] l

/-- Split a specifier string on `/` and normalise. -/
def segsOf (s : String) : List String := normSegs (splitSlash s)

/-- `path.join(a, b, c)` on strings, producing a normalised string. -/
def joinStr (parts : List String) : String :=
  joinSegs (normSegs (parts.flatMap splitSlash))

/-- `path.relative(base, p)` restricted to `/`-separated segment lists:
strip the common prefix, then one `..` per remaining base segment. -/
def relSegs : List String → List String → List String
  | b :: bs, p :: ps => if b = p then relSegs bs ps else
      (b :: bs).map (fun _ => "..") ++ p :: ps
  | [], ps => ps
  | bs, [] => bs.map (fun _ => "..")

def relStr (base p : List String) : String :=
  joinSegs (relSegs base p)

/-! ## The effect monad

State: the filesystem tree plus a log of every path written or created.
Exceptions keep the state reached at the point of failure (a thrown
`writeFileSync` does not undo earlier writes). -/

structure St where
  tree : Node
  log : List (List String)
deriving DecidableEq

def M (α : Type) := St → Except String α × St

def M.pure {α : Type} (a : α) : M α := fun s => (.ok a, s)

def M.bind {α β : Type} (x : M α) (f : α → M β) : M β := fun s =>
  match x s with
  | (.ok a, s') => f a s'
  | (.error e, s') => (.error e, s')

instance : Monad M where
  pure := M.pure
  bind := M.bind

/-- Throw (model of a thrown JS `Error`). -/
def mThrow {α : Type} (e : String) : M α := fun s => (.error e, s)

/-- Lift a pure `Except` computation (a read-only source step). -/
def mLift {α : Type} (x : St → Except String α) : M α := fun s => (x s, s)

def mExists (p : List String) : M Bool :=
  mLift (fun s => .ok (pathExists s.tree p))

def mIsDir (p : List String) : M Bool :=
  mLift (fun s => .ok (isDirAt s.tree p))

def mReadFile (p : List String) : M String :=
  mLift (fun s => readFileAt s.tree p)

def mReaddir (p : List String) : M (List String) :=
  mLift (fun s => readdirAt s.tree p)

def mGetTree : M Node := mLift (fun s => .ok s.tree)

def mWriteFile (p : List String) (c : String) : M Unit := fun s =>
  match writeFileAt s.tree p c with
  | .ok t => (.ok (), ⟨t, s.log ++ [p]⟩)
  | .error e => (.error e, s)

def mMkdirp (p : List String) : M Unit := fun s =>
  match mkdirpAt s.tree p with
  | .ok t => (.ok (), ⟨t, s.log ++ [p]⟩)
  | .error e => (.error e, s)

/-- Run a stateful computation. -/
def M.run {α : Type} (x : M α) (s : St) : Except String α × St := x s

/-! ## String utilities (JS `String.prototype` operations used by the source) -/

/-- JS `content.includes(sub)` on character lists. -/
def strContainsL : List Char → List Char → Bool
  | [], sub => sub.isEmpty
  | l@(_ :: t), sub => sub.isPrefixOf l || strContainsL t sub

def strContains (s sub : String) : Bool := strContainsL s.toList sub.toList

/-- JS `s.replace(pat, rep)` with a string pattern: replaces the first
occurrence only. -/
def replaceFirstL (pat rep : List Char) : List Char → List Char
  | [] => []
  | l@(c :: t) =>
    if pat ≠ [] ∧ pat.isPrefixOf l then rep ++ l.drop pat.length
    else c :: replaceFirstL pat rep t

def replaceFirst (s pat rep : String) : String :=
  String.mk (replaceFirstL pat.toList rep.toList s.toList)

/-! ## The `require("...")` scanners

`content.matchAll(/require\("(next\/dist\/[^"]+)"\)/g)` (chunk scan) and
`content.matchAll(/require\("([^"]+)"\)/g)` (trace scan): at each position
the literal `require("` must match, the capture runs to the next `"` (so it
can contain no quote), must be non-empty (and for the chunk scan start with
`next/dist/` followed by at least one character), and must be followed by
`)`.  `matchAll` resumes after the end of each match and advances one
character past positions that do not match. -/

/-- Characters up to (excluding) the next `"`, plus the remainder after that
quote; `none` when no quote follows. -/
def upToQuote : List Char → Option (List Char × List Char)
  | [] => none
  | '"' :: r => some ([], r)
  | c :: r =>
    match upToQuote r with
    | some (cap, rest) => some (c :: cap, rest)
    | none => none

/-- Try to match one `require("<capture>")` at the head of the input.
Returns the capture and the total length of the matched text. -/
def tryMatchRequire (chunkOnly : Bool) (l : List Char) : Option (String × Nat) :=
  if ("require(\"".toList).isPrefixOf l then
    match upToQuote (l.drop 9) with
    | some (cap, ')' :: _) =>
      if cap ≠ [] ∧ (¬chunkOnly ∨
          (("next/dist/".toList).isPrefixOf cap ∧ 10 < cap.length)) then
        some (String.mk cap, cap.length + 11)
      else none
    | _ => none
  else none

/-- All captures of the scan, in order, resuming after each match.  Every
step consumes at least one character, so structural recursion on a step
counter initialised to the input length is exact. -/
def scanRequiresAux (chunkOnly : Bool) : Nat → List Char → List String
  | 0, _ => []
  | _ + 1, [] => []
  | fuel + 1, c :: t =>
    match tryMatchRequire chunkOnly (c :: t) with
    | some (cap, n) => cap :: scanRequiresAux chunkOnly fuel ((c :: t).drop n)
    | none => scanRequiresAux chunkOnly fuel t

def scanRequires (chunkOnly : Bool) (l : List Char) : List String :=
  scanRequiresAux chunkOnly l.length l

/-! ## nextConfig extraction

`serverSrc.match(/const nextConfig = ({[\s\S]*?})\n/)`: the leftmost
occurrence of the literal `const nextConfig = {` whose brace is followed
(lazily) by the first `}` that is itself followed by a newline; the capture
group spans from the `{` to that `}`. -/

/-- Characters up to and including the first `}` that is followed by a
newline. -/
def cfgBody : List Char → Option (List Char)
  | '}' :: '\n' :: _ => some ['}']
  | c :: rest =>
    match cfgBody rest with
    | some body => some (c :: body)
    | none => none
  | [] => none

def extractCfgL : List Char → Option String
  | [] => none
  | l@(_ :: t) =>
    if ("const nextConfig = \x7b".toList).isPrefixOf l then
      match cfgBody (l.drop 20) with
      | some body => some (String.mk ('{' :: body))
      | none => extractCfgL t
    else extractCfgL t

def extractNextConfig (s : String) : Option String := extractCfgL s.toList

/-! ## External collaborators, modelled from the spec -/

/-- Modelled from the spec: node:crypto's
`createHash("md5").update(s).digest("hex").slice(0, 6)` — external to this
repository — modelled as a deterministic six-hex-digit digest of the input;
no claim depends on the digest values, only on their determinism. -/
def md5Hex6 (s : String) : String :=
  let hexChar : Nat → Char := fun n =>
    if n < 10 then Char.ofNat (48 + n) else Char.ofNat (87 + n)
  let h := s.toList.foldl (fun (a : Nat) c => (a * 131 + c.toNat) % 16777216) 7
  String.mk [hexChar (h / 1048576 % 16), hexChar (h / 65536 % 16),
    hexChar (h / 4096 % 16), hexChar (h / 256 % 16),
    hexChar (h / 16 % 16), hexChar (h % 16)]

/-- `toVarName`: a safe JS identifier from a URL path (source
`generate.ts`). -/
def toVarName (filePath : String) : String :=
  let hash := md5Hex6 filePath
  let safe := String.mk ((filePath.toList.map
    (fun c => if c.isAlphanum then c else '_')).take 40)
  "asset_" ++ safe ++ "_" ++ hash

/-- Modelled from the spec: `JSON.stringify` for a string (the asset URL and
disk paths serialised into the bootstrap program); external library
behaviour, restricted to the escapes relevant here. -/
def jsonEscapeStr (s : String) : String :=
  String.mk (s.toList.flatMap (fun c =>
    if c = '"' then ['\\', '"']
    else if c = '\\' then ['\\', '\\']
    else if c = '\n' then ['\\', 'n']
    else [c]))

def jsonStr (s : String) : String := "\"" ++ jsonEscapeStr s ++ "\""

/-- `JSON.stringify` of the extraction pair list (array of two-element
string arrays, no whitespace). -/
def jsonPairs (l : List (String × String)) : String :=
  "[" ++ joinWith "," (l.map (fun p =>
    "[" ++ jsonStr p.1 ++ "," ++ jsonStr p.2 ++ "]")) ++ "]"

/-- Modelled from the spec: `JSON.parse` of the build-context file followed
by reading its `assetPrefix` property — `JSON.parse` is external library
code; per the spec the context is the flat record
`{distDir, projectDir, assetPrefix}` written by the build hook, so the
property is extracted textually; `none` when absent. -/
def parseAssetPrefixAux : List Char → Option (List Char)
  | [] => none
  | l@(_ :: t) =>
    if ("\"assetPrefix\":\"".toList).isPrefixOf l then some (l.drop 15)
    else parseAssetPrefixAux t

def takeUntilQuote : List Char → Option (List Char)
  | [] => none
  | '"' :: _ => some []
  | c :: t =>
    match takeUntilQuote t with
    | some r => some (c :: r)
    | none => none

def parseAssetPrefix (s : String) : Option String := do
  let rest ← parseAssetPrefixAux s.toList
  let v ← takeUntilQuote rest
  Pure.pure (String.mk v)

/-- JS truthiness of the `assetPrefix` value: a present, non-empty string. -/
def assetPrefixTruthy : Option String → Bool
  | some s => !(s = "")
  | none => false

/-! ## `walkDir` (source `generate.ts`): recursive file enumeration -/

/-- The relative segment paths of all files under a directory's entries, in
`readdirSync` order, directories expanded in place (exactly the source's
`results.push(...walkDir(full, base))` depth-first order). -/
def walkEntries : Entries → List (List String)
  | .nil => []
  | .cons name (.file _) rest => [name] :: walkEntries rest
  | .cons name (.dir es') rest =>
    (walkEntries es').map (fun r => name :: r) ++ walkEntries rest

/-- `walkDir(dir)` with `base = dir`: a non-existent directory yields `[]`;
a file in its place makes `readdirSync` throw.  Yields
(absolute path, path relative to `dir`) pairs. -/
def walkDir (t : Node) (dir : List String) :
    Except String (List (List String × List String)) :=
  match getNode t dir with
  | none => .ok []
  | some (.file _) => .error "ENOTDIR"
  | some (.dir es) => .ok ((walkEntries es).map (fun r => (dir ++ r, r)))

/-! ## `findServerDir` (source `generate.ts`) -/

/-- Does this node (a directory) directly contain an entry named
`server.js` (`existsSync(join(d, "server.js"))`)? -/
def hasServerJs : Node → Bool
  | .file _ => false
  | .dir es => (es.find? "server.js").isSome

/-- The inner `search`: iterate entries in order, skip names equal to
`node_modules`, skip non-directories, return the entry itself when it
contains `server.js`, otherwise recurse into it; first hit wins. -/
def searchEntries : Entries → Option (List String)
  | .nil => none
  | .cons name n rest =>
    if name = "node_modules" then searchEntries rest
    else
      match n with
      | .file _ => searchEntries rest
      | .dir es' =>
        if (es'.find? "server.js").isSome then some [name]
        else
          match searchEntries es' with
          | some rel => some (name :: rel)
          | none => searchEntries rest

def serverNotFoundMsg : String :=
  "next-bun-compile: Could not find server.js in standalone output"

/-- `findServerDir(standaloneDir)`: fast path when `server.js` is directly
under the root, otherwise the recursive search; throws the
"Could not find server.js" error when nothing qualifies. -/
def findServerDir (t : Node) (root : List String) :
    Except String (List String) :=
  match getNode t root with
  | some rn =>
    if hasServerJs rn then .ok root
    else
      match rn with
      | .file _ => .error "ENOTDIR"
      | .dir es =>
        match searchEntries es with
        | some rel => .ok (root ++ rel)
        | none => .error serverNotFoundMsg
  | none => .error serverNotFoundMsg

/-- Specification-side counterpart of the locator's search, following the
claim's words: the depth-first enumeration, in directory-listing order and
skipping every directory named `node_modules`, of all directories (at any
depth) containing `server.js`.  `searchEntries` is proved to return its
head. -/
def dfsServerDirs : Entries → List (List String)
  | .nil => []
  | .cons name n rest =>
    (if name = "node_modules" then []
     else
       match n with
       | .file _ => []
       | .dir es' =>
         (if (es'.find? "server.js").isSome then [[name]] else []) ++
           (dfsServerDirs es').map (fun r => name :: r)) ++
      dfsServerDirs rest

/-! ## `findPackageDirs` (source `generate.ts`) -/

/-- All install locations of a package under `node_modules/`: the direct
path plus every bun-hoisted `.bun/<scope>@*/node_modules/<pkg>` path whose
directory-entry name starts with the (scope-flattened) package name plus
`@`; throws when `node_modules/.bun` exists but is not a directory. -/
def findPackageDirs (t : Node) (nm : List String) (pkg : String) :
    Except String (List (List String)) := do
  let direct := nm ++ segsOf pkg
  let dirs := if pathExists t direct then [direct] else []
  let bunDir := nm ++ [".bun"]
  if pathExists t bunDir then do
    let scope :=
      if strStartsWith pkg "@" then
        match splitSlash pkg with
        | a :: b :: _ => a ++ "+" ++ b
        | _ => pkg ++ "+undefined"
      else pkg
    let entries ← readdirAt t bunDir
    let hoisted := (entries.filter (fun e => strStartsWith e (scope ++ "@"))).map
      (fun e => bunDir ++ [e, "node_modules"] ++ segsOf pkg)
    .ok (dirs ++ hoisted.filter (fun h => pathExists t h))
  else
    .ok dirs

/-! ## `generateStubs` (source `generate.ts`) -/

structure StubEntry where
  pkg : String
  subpath : String
  content : String
deriving DecidableEq

/-- The fixed stub table from the source. -/
def stubTable : List StubEntry :=
  [⟨"next", "dist/server/dev/next-dev-server.js",
    "module.exports = \x7b default: null \x7d;"⟩,
   ⟨"next", "dist/server/lib/router-utils/setup-dev-bundler.js",
    "module.exports = \x7b\x7d;"⟩,
   ⟨"@opentelemetry/api", "index.js",
    "throw new Error(\x27not installed\x27);"⟩,
   ⟨"critters", "index.js",
    "module.exports = \x7b\x7d;"⟩]

/-- The per-location body of the stub loop: write the placeholder only when
nothing exists at the target, creating the parent directory if missing. -/
def stubWrite (fullPath : List String) (content : String) : M Unit := do
  let ex ← mExists fullPath
  if ex then Pure.pure ()
  else do
    let dir := fullPath.dropLast
    let dx ← mExists dir
    if dx then Pure.pure () else mMkdirp dir
    mWriteFile fullPath content

/-- The per-table-entry body of the stub loop: resolve all install
locations, falling back to the single canonical default when there are
none, and stub each location + subpath. -/
def stubEntryRun (standalone : List String) (st : StubEntry) : M Unit := do
  let nm := standalone ++ ["node_modules"]
  let pkgDirs ← mLift (fun s => findPackageDirs s.tree nm st.pkg)
  let dirs := if pkgDirs.isEmpty then [nm ++ segsOf st.pkg] else pkgDirs
  dirs.forM (fun d => stubWrite (d ++ segsOf st.subpath) st.content)

/-- `generateStubs(standaloneDir)`: the loop over the fixed stub table. -/
def generateStubs (standalone : List String) : M Unit :=
  stubTable.forM (stubEntryRun standalone)

/-! ## `patchRequireHook` (source `generate.ts`) -/

def requireHookTarget : String :=
  "let resolve = process.env.NEXT_MINIMAL ? __non_webpack_require__.resolve : require.resolve;"

def requireHookReplacement : String :=
  "let _resolve = process.env.NEXT_MINIMAL ? __non_webpack_require__.resolve : require.resolve;\nlet resolve = (id) => \x7b try \x7b return _resolve(id); \x7d catch \x7b return \x27\x27; \x7d \x7d;"

/-- The fixed internal file path of the host package, relative to an
install location. -/
def hookPathOf (d : List String) : List String :=
  d ++ segsOf "dist/server/require-hook.js"

/-- The per-install-location body of the patch loop: read
`dist/server/require-hook.js` when present and replace the first occurrence
of the known resolve-assignment fragment — skipping silently when the file
or the fragment is absent. -/
def patchDirRun (d : List String) : M Unit := do
  let hookPath := hookPathOf d
  let ex ← mExists hookPath
  if ex then do
    let content ← mReadFile hookPath
    if strContains content requireHookTarget then
      mWriteFile hookPath
        (replaceFirst content requireHookTarget requireHookReplacement)
    else Pure.pure ()
  else Pure.pure ()

/-- `patchRequireHook(standaloneDir)`: the loop over every install location
of `next`. -/
def patchRequireHook (standalone : List String) : M Unit := do
  let nm := standalone ++ ["node_modules"]
  let nextDirs ← mLift (fun s => findPackageDirs s.tree nm "next")
  nextDirs.forM patchDirRun

/-- What one pass of the patch does to the node found at the hook path:
files have the fragment replaced when present and are untouched otherwise;
a missing node stays missing. -/
def patchResult : Option Node → Option Node
  | some (.file c) =>
    some (.file (if strContains c requireHookTarget then
      replaceFirst c requireHookTarget requireHookReplacement else c))
  | x => x

/-- Two paths that are not related by the prefix order address disjoint
parts of the tree. -/
def SegDisjoint (a b : List String) : Prop := ¬ a <+: b ∧ ¬ b <+: a

/-! ## `collectExternalModules` (source `generate.ts`) -/

/-- JS `Set.add`: insert preserving first-insertion order. -/
def insertUniq (l : List String) (x : String) : List String :=
  if x ∈ l then l else l ++ [x]

/-- Seed extraction: scan every `.js` file under
`<serverDir>/.next/server/chunks` for `require("next/dist/...")`. -/
def collectSeeds (t : Node) (serverDir : List String) :
    Except String (List String) := do
  let chunksDir := serverDir ++ [".next", "server", "chunks"]
  if pathExists t chunksDir then do
    let files ← walkDir t chunksDir
    files.foldlM (fun acc f =>
      if strEndsWith (joinSegs f.1) ".js" then do
        let content ← readFileAt t f.1
        Except.ok ((scanRequires true content.toList).foldl insertUniq acc)
      else Except.ok acc) []
  else Except.ok []

mutual
/-- Mutual node count, for the trace fuel bound. -/
def Node.size : Node → Nat
  | .file _ => 1
  | .dir es => 1 + Entries.size es

/-- Mutual node count of a directory's entries. -/
def Entries.size : Entries → Nat
  | .nil => 0
  | .cons _ n rest => Node.size n + Entries.size rest
end

/-- `join(standaloneDir, "node_modules", file)` for a specifier string. -/
def specPath (standalone : List String) (file : String) : List String :=
  normSegs (standalone ++ ["node_modules"] ++ splitSlash file)

/-- The recursive dependency trace.  The source recursion terminates because
every productive recursive call first inserts a string (checked to resolve
to an existing node) into the visited set, so the depth is bounded by the
number of strings resolving to existing filesystem nodes; here that
unbounded recursion is modelled with explicit fuel, which
`collectExternalModules` instantiates with a bound larger than any possible
visited-set growth. -/
def traceDep (t : Node) (standalone : List String) :
    Nat → List String → String → Except String (List String)
  | 0, deps, _ => .ok deps
  | fuel + 1, deps, file0 =>
    if file0 ∈ deps then .ok deps
    else
      let fullPath0 := specPath standalone file0
      let resolved :=
        match getNode t fullPath0 with
        | some (.dir es) =>
          let deps' :=
            if (es.find? "package.json").isSome then
              insertUniq deps (file0 ++ "/package.json")
            else deps
          let file1 := file0 ++ "/index.js"
          (file1, specPath standalone file1, deps')
        | _ => (file0, fullPath0, deps)
      match resolved with
      | (file, fullPath, deps1) =>
        if pathExists t fullPath then do
          let deps2 := insertUniq deps1 file
          let content ← readFileAt t fullPath
          (scanRequires false content.toList).foldlM (fun ds req =>
            if strStartsWith req "." then
              let r0 := joinStr [file, "..", req]
              let r1 := if strEndsWith r0 ".js" then r0 else r0 ++ ".js"
              traceDep t standalone fuel ds r1
            else if strStartsWith req "next/" then
              let r1 := if strEndsWith req ".js" then req else req ++ ".js"
              traceDep t standalone fuel ds r1
            else Except.ok ds) deps2
        else Except.ok deps1

/-- `collectExternalModules(standaloneDir, serverDir)`. -/
def collectExternalModules (t : Node) (standalone serverDir : List String) :
    Except String (List String) := do
  let seeds ← collectSeeds t serverDir
  seeds.foldlM
    (fun deps s => traceDep t standalone (3 * (Node.size t + seeds.length) + 3) deps s)
    []

/-! ## `generateEntryPoint` (source `generate.ts`) -/

/-- An asset record `{absolutePath, relativePath, urlPath}`; the absolute
path as segments, the relative path and logical URL path as the strings the
source builds. -/
structure Asset where
  abs : List String
  rel : String
  urlPath : String
deriving DecidableEq

structure GenerateOptions where
  standaloneDir : List String
  distDir : List String
  projectDir : List String

/-- Discover one asset set: walk a directory and attach URL paths. -/
def mWalkAssets (dir : List String) (mkUrl : String → String) :
    M (List Asset) := do
  let files ← mLift (fun s => walkDir s.tree dir)
  Pure.pure (files.map (fun f =>
    let rel := joinSegs f.2
    ⟨f.1, rel, mkUrl rel⟩))

/-- One iteration of the external-module mirror loop: copy the traced path
into `<serverDir>/.next/__external/` when it exists under the standalone
`node_modules`, pushing the runtime-file record. -/
def mirrorStep (standalone serverDir : List String) (acc : List Asset)
    (mod : String) : M (List Asset) := do
  let src := specPath standalone mod
  let ex ← mExists src
  if ex then do
    let dest := normSegs (serverDir ++ [".next", "__external"] ++ splitSlash mod)
    mMkdirp dest.dropLast
    let content ← mReadFile src
    mWriteFile dest content
    Pure.pure (acc ++
      [⟨dest, "__external/" ++ mod, "__runtime/.next/node_modules/" ++ mod⟩])
  else Pure.pure acc

/-- The external-module mirror loop over every traced path (preceded by
`next/package.json`). -/
def mirrorExternals (standalone serverDir : List String)
    (externalPaths : List String) : M (List Asset) :=
  externalPaths.foldlM (mirrorStep standalone serverDir) []

/-- No empty, `.` or `..` segments: `path.join`-normalisation is the
identity on such paths. -/
def CleanSegs (l : List String) : Prop :=
  ∀ x ∈ l, ¬(x = "" ∨ x = ".") ∧ ¬(x = "..")

/-- The embed-set selection: a truthy `assetPrefix` drops the static set. -/
def embedSelect (assetPrefix : Option String) (st pu ru : List Asset) :
    List Asset :=
  if assetPrefixTruthy assetPrefix then pu ++ ru else st ++ pu ++ ru

/-- One `import ... with { type: "file" }` line of `assets.generated.js`. -/
def importLine (serverDir : List String) (a : Asset) : String :=
  "import " ++ toVarName a.urlPath ++ " from \"./" ++ relStr serverDir a.abs ++
    "\" with \x7b type: \"file\" \x7d;"

/-- One `["<urlPath>", <var>],` map line of `assets.generated.js`. -/
def mapEntryLine (a : Asset) : String :=
  "  [\"" ++ a.urlPath ++ "\", " ++ toVarName a.urlPath ++ "],"

/-- The full content of `assets.generated.js`. -/
def registryContent (serverDir : List String) (assets : List Asset) : String :=
  joinWith "\n" (assets.map (importLine serverDir)) ++
    "\nexport const assetMap = new Map([\n" ++
    joinWith "\n" (assets.map mapEntryLine) ++ "\n]);\n"

/-- The runtime extraction disk path of an embedded asset. -/
def diskPathOf (a : Asset) : String :=
  if strStartsWith a.urlPath "__runtime/" then strDrop a.urlPath 10
  else if strStartsWith a.urlPath "/_next/static/" then ".next/static/" ++ a.rel
  else "public/" ++ a.rel

def configErrMsg : String :=
  "next-bun-compile: Could not extract nextConfig from standalone server.js"

/-- The synthesized bootstrap program (`server-entry.js`), as a function of
the extracted configuration literal and the serialised extraction map. -/
def serverEntryContent (cfg extr : String) : String :=
  "import \x7b assetMap \x7d from \"./assets.generated.js\";\n" ++
  "const path = require(\"path\");\n" ++
  "const fs = require(\"fs\");\n" ++
  "\n" ++
  "const baseDir = path.dirname(process.execPath);\n" ++
  "process.chdir(baseDir);\n" ++
  "process.env.NODE_ENV = \"production\";\n" ++
  "\n" ++
  "const nextConfig = " ++ cfg ++ ";\n" ++
  "process.env.__NEXT_PRIVATE_STANDALONE_CONFIG = JSON.stringify(nextConfig);\n" ++
  "\n" ++
  "const currentPort = parseInt(process.env.PORT, 10) || 3000;\n" ++
  "const hostname = process.env.HOSTNAME || \"0.0.0.0\";\n" ++
  "let keepAliveTimeout = parseInt(process.env.KEEP_ALIVE_TIMEOUT, 10);\n" ++
  "if (Number.isNaN(keepAliveTimeout) || !Number.isFinite(keepAliveTimeout) || keepAliveTimeout < 0) \x7b\n" ++
  "  keepAliveTimeout = undefined;\n" ++
  "\x7d\n" ++
  "\n" ++
  "const extractions = " ++ extr ++ ";\n" ++
  "async function extractAssets() \x7b\n" ++
  "  let n = 0;\n" ++
  "  for (const [urlPath, diskPath] of extractions) \x7b\n" ++
  "    const fullPath = path.join(baseDir, diskPath);\n" ++
  "    if (fs.existsSync(fullPath)) continue;\n" ++
  "    fs.mkdirSync(path.dirname(fullPath), \x7b recursive: true \x7d);\n" ++
  "    const embedded = assetMap.get(urlPath);\n" ++
  "    if (embedded) \x7b await Bun.write(fullPath, Bun.file(embedded)); n++; \x7d\n" ++
  "  \x7d\n" ++
  "  if (n > 0) console.log(`Extracted $\x7bn\x7d assets`);\n" ++
  "\x7d\n" ++
  "\n" ++
  "extractAssets().then(() => \x7b\n" ++
  "  require(\"next\");\n" ++
  "  const \x7b startServer \x7d = require(\"next/dist/server/lib/start-server\");\n" ++
  "  return startServer(\x7b\n" ++
  "    dir: baseDir, isDev: false, config: nextConfig,\n" ++
  "    hostname, port: currentPort, allowRetry: false, keepAliveTimeout,\n" ++
  "  \x7d);\n" ++
  "\x7d).catch((err) => \x7b console.error(err); process.exit(1); \x7d);\n"

/-- The tail of `generateEntryPoint` from nextConfig extraction on: read the
server root's `server.js`, extract the configuration literal (failing fast
when absent) and emit the bootstrap program. -/
def emitServerEntry (serverDir : List String) (assetsToEmbed : List Asset) :
    M (List String) := do
  let serverSrc ← mReadFile (serverDir ++ ["server.js"])
  match extractNextConfig serverSrc with
  | none => mThrow configErrMsg
  | some cfg => do
    let extractions := assetsToEmbed.map (fun a => (a.urlPath, diskPathOf a))
    mWriteFile (serverDir ++ ["server-entry.js"])
      (serverEntryContent cfg (jsonPairs extractions))
    Pure.pure serverDir

/-- `generateEntryPoint(options)` (source `generate.ts`, second revision):
locate the server root, mutate the tree (stubs, require-hook patch,
external-module mirror), discover and select the embed set, then write
`assets.generated.js` and `server-entry.js` under the server root. -/
def generateEntryPoint (o : GenerateOptions) : M (List String) := do
  let serverDir ← mLift (fun s => findServerDir s.tree o.standaloneDir)
  generateStubs o.standaloneDir
  patchRequireHook o.standaloneDir
  let staticFiles ← mWalkAssets (o.distDir ++ ["static"])
    (fun r => "/_next/static/" ++ r)
  let publicFiles ← mWalkAssets (o.projectDir ++ ["public"])
    (fun r => "/" ++ r)
  let runtimeFiles ← mWalkAssets (serverDir ++ [".next"])
    (fun r => "__runtime/.next/" ++ r)
  let externalModules ← mLift
    (fun s => collectExternalModules s.tree o.standaloneDir serverDir)
  let pushed ← mirrorExternals o.standaloneDir serverDir
    ("next/package.json" :: externalModules)
  let runtimeFiles := runtimeFiles ++ pushed
  let ctxContent ← mReadFile (o.distDir ++ ["bun-compile-ctx.json"])
  let assetsToEmbed :=
    embedSelect (parseAssetPrefix ctxContent) staticFiles publicFiles runtimeFiles
  mWriteFile (serverDir ++ ["assets.generated.js"])
    (registryContent serverDir assetsToEmbed)
  emitServerEntry serverDir assetsToEmbed

/-! ## Experiment apparatus -/

/-- Build a tree from (path, content) pairs, creating parent directories —
apparatus for stating concrete scenarios. -/
def mkFs (files : List (List String × String)) : Node :=
  files.foldl (fun t pc =>
    match mkdirpAt t pc.1.dropLast with
    | .ok t' =>
      match writeFileAt t' pc.1 pc.2 with
      | .ok t'' => t''
      | .error _ => t'
    | .error _ => t) (.dir .nil)

/-- Remove a directory entry by name (apparatus for `rm`). -/
def Entries.remove : Entries → String → Entries
  | .nil, _ => .nil
  | .cons n node rest, s =>
    if n = s then rest else .cons n node (rest.remove s)

/-- Delete the file at a path (apparatus modelling the `rm` of the two
output files between the runs of the idempotence experiment). -/
def removeFile : Node → List String → Node
  | n, [] => n
  | .file c, _ :: _ => .file c
  | .dir es, [s] => .dir (es.remove s)
  | .dir es, s :: s' :: rest =>
    match es.find? s with
    | some n => .dir (es.set s (removeFile n (s' :: rest)))
    | none => .dir es

/-! ## Witness fixtures -/

/-- Monorepo-nested entries under the standalone root: `apps/web/server.js`
plus a `node_modules` directory. -/
def c1Entries : Entries :=
  .cons "apps"
    (.dir (.cons "web" (.dir (.cons "server.js" (.file "x") .nil)) .nil))
    (.cons "node_modules" (.dir (.cons "server.js" (.file "y") .nil)) .nil)

def c1Tree : Node := .dir (.cons "s" (.dir c1Entries) .nil)

/-- Standalone tree whose server chunk references one `next/dist` module
that is present under `node_modules`. -/
def c10Tree : Node :=
  mkFs [(["s", "server.js"], "const nextConfig = \x7b\x7d\n"),
    (["s", ".next", "server", "chunks", "ssr.js"],
      "require(\"next/dist/compiled/react/index.js\");"),
    (["s", "node_modules", "next", "dist", "compiled", "react", "index.js"],
      "module.exports = \x7b\x7d;")]

/-- A well-formed standalone tree (flat layout, `server.js` with a valid
configuration literal) whose `distDir` contains no `bun-compile-ctx.json`. -/
def c2Tree : Node :=
  mkFs [(["d", "standalone", "server.js"], "const nextConfig = \x7b\x7d\n")]

def c2Opts : GenerateOptions := ⟨["d", "standalone"], ["d"], ["p"]⟩

/-- Standalone root (at `[]`) whose server root is `app`: one server chunk
references one `next/dist` module present under `node_modules`. -/
def c3Tree : Node :=
  mkFs [(["app", ".next", "server", "chunks", "c.js"],
      "require(\"next/dist/x.js\")"),
    (["node_modules", "next", "dist", "x.js"], "1")]

/-- A pathological standalone root whose only `server.js` lives inside
`.next/__external/x`, so server-root resolution (which skips only
`node_modules`) lands the mirror destination under the standalone root's
own `.next/__external` tree. -/
def c3xTree : Node :=
  mkFs [([".next", "__external", "x", "server.js"],
      "const nextConfig = \x7b\x7d\n"),
    ([".next", "__external", "x", ".next", "server", "chunks", "c.js"],
      "require(\"next/dist/x.js\")"),
    (["node_modules", "next", "dist", "x.js"], "1"),
    (["dist", "bun-compile-ctx.json"], "\x7b\x7d")]

def c3xOpts : GenerateOptions := ⟨[], ["dist"], ["proj"]⟩

/-- A tree carrying one asset of each embed family: a shared static file, a
public file, a runtime file under the server root's `.next`, and one
traced external module under `node_modules`. -/
def c6Tree : Node :=
  mkFs [(["dist", "static", "a.js"], "A"),
    (["proj", "public", "logo.png"], "L"),
    (["s", ".next", "r.js"], "R"),
    (["node_modules", "next", "dist", "y.js"], "Y")]

/-- A full pipeline input whose public directory carries
`_next/static/a.js` while the shared static directory also carries `a.js`:
both are embedded with the same `urlPath`. -/
def c6xTree : Node :=
  mkFs [(["s", "server.js"], "const nextConfig = \x7b\x7d\n"),
    (["dist", "static", "a.js"], "A"),
    (["proj", "public", "_next", "static", "a.js"], "B"),
    (["dist", "bun-compile-ctx.json"], "\x7b\x7d")]

def c6xOpts : GenerateOptions := ⟨["s"], ["dist"], ["proj"]⟩

/-- A tree where `node_modules/.bun` is a regular file, so the bun-layout
scan's `readdirSync` throws. -/
def c8Tree : Node :=
  mkFs [(["s", "node_modules", ".bun"], "not a directory"),
    (["s", "node_modules", "next", "dist", "server", "require-hook.js"],
      "module.exports = \x7b\x7d;")]

/-- A tree with one `next` install whose require-hook carries the exact
fragment. -/
def c8GoodTree : Node :=
  mkFs [(["s", "node_modules", "next", "dist", "server", "require-hook.js"],
    "x;\n" ++ requireHookTarget ++ "\ny;")]

/-- Flat server root whose `server.js` carries the expected configuration
literal. -/
def c9Tree : Node :=
  mkFs [(["s", "server.js"],
    "const nextConfig = \x7b\"env\":\x7b\x7d\x7d\nprocess.exit(0);\n")]

/-- A stateful computation preserves every existing file byte-for-byte
(on success and on failure alike). -/
def PreservesFiles {α : Type} (m : M α) : Prop :=
  ∀ (s : St) (r : Except String α) (s' : St), M.run m s = (r, s') →
    ∀ (q : List String) (c : String),
      getNode s.tree q = some (.file c) → getNode s'.tree q = some (.file c)

/-- A computation only appends to the write log, and leaves the tree
unchanged whenever it logged nothing (every tree mutation goes through
`mWriteFile`/`mMkdirp`, which always log). -/
def LogMono {α : Type} (m : M α) : Prop :=
  ∀ (s : St) (r : Except String α) (s' : St), M.run m s = (r, s') →
    ∃ ws, s'.log = s.log ++ ws ∧ (ws = [] → s'.tree = s.tree)

/-- A complete input on which every mutation phase is a no-op: all stub
locations are already populated, the host package carries no
`dist/server/require-hook.js` and no `package.json`, there are no server
chunks, and the build-context file is present. -/
def c4Tree : Node :=
  mkFs [(["w", "server.js"], "const nextConfig = \x7b\x7d\n"),
    (["w", "node_modules", "next", "dist", "server", "dev",
       "next-dev-server.js"], "s1"),
    (["w", "node_modules", "next", "dist", "server", "lib", "router-utils",
       "setup-dev-bundler.js"], "s2"),
    (["w", "node_modules", "@opentelemetry", "api", "index.js"], "s3"),
    (["w", "node_modules", "critters", "index.js"], "s4"),
    (["wd", "bun-compile-ctx.json"], "\x7b\x7d")]

def c4Opts : GenerateOptions := ⟨["w"], ["wd"], ["wp"]⟩

/-- A complete input whose server chunk references one traced module, so
the first run's mirror copy lands under `<serverDir>/.next/__external` and
is picked up by the second run's runtime walk. -/
def c4xTree : Node :=
  mkFs [(["x", "server.js"], "const nextConfig = \x7b\x7d\n"),
    (["x", ".next", "server", "chunks", "c.js"],
      "require(\"next/dist/z.js\")"),
    (["x", "node_modules", "next", "dist", "z.js"], "Z"),
    (["xd", "bun-compile-ctx.json"], "\x7b\x7d")]

def c4xOpts : GenerateOptions := ⟨["x"], ["xd"], ["xp"]⟩

/-! # Theorems -/

@[simp] theorem M.run_pure {α : Type} (a : α) (s : St) :
    M.run (Pure.pure a) s = (.ok a, s) := rfl

@[simp] theorem M.run_bind {α β : Type} (x : M α) (f : α → M β) (s : St) :
    M.run (x >>= f) s =
      match M.run x s with
      | (.ok a, s') => M.run (f a) s'
      | (.error e, s') => (.error e, s') := rfl

@[simp] theorem M.run_mLift {α : Type} (f : St → Except String α) (s : St) :
    M.run (mLift f) s = (f s, s) := rfl

/-- The locator's search returns exactly the head of the depth-first
enumeration of qualifying directories. -/
theorem searchEntries_eq_head :
    (es : Entries) → searchEntries es = (dfsServerDirs es).head?
  | .nil => rfl
  | .cons name n rest => by
    unfold searchEntries dfsServerDirs
    by_cases h : name = "node_modules"
    · simp [h, searchEntries_eq_head rest]
    · simp only [h, if_false]
      match n with
      | .file _ => simp [searchEntries_eq_head rest]
      | .dir es' =>
        by_cases hs : (Entries.find? es' "server.js").isSome
        · simp [hs]
        · simp only [hs, if_false, Bool.false_eq_true, List.nil_append]
          rw [searchEntries_eq_head es', searchEntries_eq_head rest]
          cases dfsServerDirs es' <;> simp

/-- **C1** For every standalone build tree, server-root location returns the
standalone root itself when `server.js` exists directly under it; otherwise
it performs a depth-first search of subdirectories that skips any directory
named `node_modules` and returns the first directory at any depth
containing `server.js`; and when no such directory exists anywhere it
raises a "server not found" error and no output files are written. -/
theorem c1_server_root_location (t : Node) (root : List String) (es : Entries)
    (o : GenerateOptions) (ho : o.standaloneDir = root)
    (hroot : getNode t root = some (.dir es)) :
    ((es.find? "server.js").isSome = true → findServerDir t root = .ok root) ∧
    ((es.find? "server.js").isSome = false →
      findServerDir t root =
        match dfsServerDirs es with
        | [] => .error serverNotFoundMsg
        | d :: _ => .ok (root ++ d)) ∧
    ((es.find? "server.js").isSome = false → dfsServerDirs es = [] →
      M.run (generateEntryPoint o) ⟨t, []⟩ = (.error serverNotFoundMsg, ⟨t, []⟩)) := by
  have hmain : ∀ h : Bool, (es.find? "server.js").isSome = h →
      findServerDir t root =
        (if h then .ok root else
          match dfsServerDirs es with
          | [] => .error serverNotFoundMsg
          | d :: _ => .ok (root ++ d)) := by
    intro h hh
    unfold findServerDir
    rw [hroot]
    dsimp only
    have : hasServerJs (.dir es) = h := hh
    rw [this]
    cases h with
    | true => simp
    | false =>
      simp only [if_false, Bool.false_eq_true]
      rw [searchEntries_eq_head es]
      cases dfsServerDirs es <;> simp
  refine ⟨fun h => by simpa using hmain true h, fun h => by simpa using hmain false h, ?_⟩
  intro h hdfs
  have hf : findServerDir t root = .error serverNotFoundMsg := by
    rw [hmain false h]
    simp [hdfs]
  unfold generateEntryPoint
  rw [M.run_bind, M.run_mLift]
  simp only [ho, hf]

/-- Witness: the server-root-location theorem at a concrete monorepo tree,
where the nested `apps/web` directory is found and a `server.js` inside
`node_modules` is skipped. -/
theorem c1_server_root_location_witness :
    findServerDir c1Tree ["s"] = .ok ["s", "apps", "web"] := by
  have h := (c1_server_root_location c1Tree ["s"] c1Entries
    ⟨["s"], ["d"], ["p"]⟩ rfl (by decide)).2.1 (by decide)
  exact h.trans (by rfl)

theorem getNode_append (t : Node) (p q : List String) :
    getNode t (p ++ q) = (getNode t p).bind (fun n => getNode n q) := by
  induction p generalizing t with
  | nil => simp [getNode]
  | cons s rest ih =>
    cases t with
    | file c => simp [getNode]
    | dir es =>
      simp only [List.cons_append, getNode]
      cases es.find? s with
      | none => simp
      | some n => simp [ih]

theorem splitSlashL_ne_nil (l : List Char) : splitSlashL l ≠ [] := by
  cases l with
  | nil => simp [splitSlashL]
  | cons c t =>
    unfold splitSlashL
    split
    · simp
    · simp
    · split
      · simp
      · simp

theorem splitSlashL_cons_ne {c : Char} (hc : ¬c = '/') (t : List Char) :
    splitSlashL (c :: t) =
      match splitSlashL t with
      | h :: r => (c :: h) :: r
      | [] => [[c]] := by
  conv_lhs => unfold splitSlashL
  split
  · rename_i heq; simp at heq
  · rename_i heq
    injection heq with h1 _
    exact absurd h1 hc
  · rename_i heq
    injection heq with h1 h2
    subst h1; subst h2
    rfl

theorem splitSlashL_append (x y : List Char) :
    splitSlashL (x ++ '/' :: y) = splitSlashL x ++ splitSlashL y := by
  induction x with
  | nil => simp [splitSlashL]
  | cons c t ih =>
    by_cases hc : c = '/'
    · subst hc
      simp [splitSlashL, ih]
    · rw [List.cons_append, splitSlashL_cons_ne hc, ih, splitSlashL_cons_ne hc t]
      cases ht : splitSlashL t with
      | nil => exact absurd ht (splitSlashL_ne_nil t)
      | cons h r => simp

theorem splitSlash_append_slash (a b : String) :
    splitSlash (a ++ "/" ++ b) = splitSlash a ++ splitSlash b := by
  unfold splitSlash
  have : (a ++ "/" ++ b).toList = a.toList ++ '/' :: b.toList := by
    simp [String.toList, String.data_append]
  rw [this, splitSlashL_append, List.map_append]

theorem normSegsAux_append_reg (s : String) (hs : ¬(s = "" ∨ s = "."))
    (hs2 : ¬s = "..") :
    ∀ (l : List String) (acc : List String),
      normSegsAux acc (l ++ [s]) = normSegsAux acc l ++ [s] := by
  intro l
  induction l with
  | nil =>
    intro acc
    simp [normSegsAux, hs, hs2]
  | cons x rest ih =>
    intro acc
    simp only [List.cons_append]
    unfold normSegsAux
    split
    · exact ih acc
    · split
      · cases acc <;> exact ih _
      · exact ih _

theorem normSegs_append_reg (l : List String) (s : String)
    (hs : ¬(s = "" ∨ s = ".")) (hs2 : ¬s = "..") :
    normSegs (l ++ [s]) = normSegs l ++ [s] :=
  normSegsAux_append_reg s hs hs2 l []

theorem splitSlash_eq_append {s a b : String}
    (h : s.toList = a.toList ++ '/' :: b.toList) :
    splitSlash s = splitSlash a ++ splitSlash b := by
  unfold splitSlash
  rw [h, splitSlashL_append, List.map_append]

/-- Resolving a specifier extended by `/x` appends the plain segment `x`. -/
theorem specPath_append_seg (standalone : List String) (file x s : String)
    (hs : s.toList = file.toList ++ '/' :: x.toList)
    (hx1 : ¬(x = "" ∨ x = ".")) (hx2 : ¬x = "..")
    (hsplit : splitSlash x = [x]) :
    specPath standalone s = specPath standalone file ++ [x] := by
  unfold specPath
  rw [splitSlash_eq_append hs, hsplit, ← List.append_assoc]
  exact normSegs_append_reg _ x hx1 hx2

theorem except_bind_ok {α β : Type} {x : Except String α}
    {f : α → Except String β} {r : β}
    (h : x >>= f = .ok r) : ∃ a, x = .ok a ∧ f a = .ok r := by
  cases x with
  | error e => exact absurd h (by simp [Bind.bind, Except.bind])
  | ok a => exact ⟨a, rfl, by simpa [Bind.bind, Except.bind] using h⟩

theorem except_bind_error {α β : Type} {x : Except String α}
    {f : α → Except String β} {e : String}
    (h : x >>= f = .error e) :
    x = .error e ∨ ∃ a, x = .ok a ∧ f a = .error e := by
  cases x with
  | error e2 =>
    have he : e2 = e := by simpa [Bind.bind, Except.bind] using h
    subst he
    exact Or.inl rfl
  | ok a => exact Or.inr ⟨a, rfl, by simpa [Bind.bind, Except.bind] using h⟩

theorem insertUniq_forall {P : String → Prop} {l : List String} {x : String}
    (hl : ∀ f ∈ l, P f) (hx : P x) : ∀ f ∈ insertUniq l x, P f := by
  intro f hf
  unfold insertUniq at hf
  split at hf
  · exact hl f hf
  · rcases List.mem_append.1 hf with h | h
    · exact hl f h
    · rw [List.mem_singleton.1 h]; exact hx

theorem foldlM_except_inv {α : Type} {P : List String → Prop}
    {f : List String → α → Except String (List String)}
    (hf : ∀ ds a res, P ds → f ds a = .ok res → P res) :
    ∀ (l : List α) (ds res : List String), P ds →
      List.foldlM f ds l = .ok res → P res := by
  intro l
  induction l with
  | nil =>
    intro ds res h e
    simp only [List.foldlM_nil] at e
    cases e
    exact h
  | cons a rest ih =>
    intro ds res h e
    rw [List.foldlM_cons] at e
    obtain ⟨ds', hfa, e'⟩ := except_bind_ok e
    exact ih ds' res (hf ds a ds' h hfa) e'

/-- Elements of the visited set resolve to existing nodes: the per-call
invariant of the recursive trace. -/
theorem traceDep_exists (t : Node) (standalone : List String) :
    ∀ (fuel : Nat) (deps : List String) (file : String) (res : List String),
      (∀ f ∈ deps, pathExists t (specPath standalone f) = true) →
      traceDep t standalone fuel deps file = .ok res →
      ∀ f ∈ res, pathExists t (specPath standalone f) = true := by
  intro fuel
  induction fuel with
  | zero =>
    intro deps file res h e
    unfold traceDep at e
    cases e
    exact h
  | succ fuel ih =>
    intro deps file res h e
    have hstep : ∀ (fl : String) (ds : List String) (req : String)
        (res2 : List String),
        (∀ f ∈ ds, pathExists t (specPath standalone f) = true) →
        (if strStartsWith req "." then
            traceDep t standalone fuel ds
              (if strEndsWith (joinStr [fl, "..", req]) ".js" then
                 joinStr [fl, "..", req]
               else joinStr [fl, "..", req] ++ ".js")
          else if strStartsWith req "next/" then
            traceDep t standalone fuel ds
              (if strEndsWith req ".js" then req else req ++ ".js")
          else Except.ok ds) = .ok res2 →
        ∀ f ∈ res2, pathExists t (specPath standalone f) = true := by
      intro fl ds req res2 hds e2
      split at e2
      · exact ih ds _ res2 hds e2
      · split at e2
        · exact ih ds _ res2 hds e2
        · cases e2; exact hds
    unfold traceDep at e
    split at e
    · cases e; exact h
    · rename_i hmem
      dsimp only at e
      revert e
      cases hg : getNode t (specPath standalone file) with
      | some n =>
        cases n with
        | dir es =>
          dsimp only
          have hdp : ∀ f ∈ (if (es.find? "package.json").isSome then
              insertUniq deps (file ++ "/package.json") else deps),
              pathExists t (specPath standalone f) = true := by
            split
            · rename_i hpj
              refine insertUniq_forall h ?_
              have hsp : specPath standalone (file ++ "/package.json") =
                  specPath standalone file ++ ["package.json"] :=
                specPath_append_seg standalone file "package.json" _
                  rfl (by simp) (by simp) (by decide)
              rw [hsp]
              unfold pathExists
              rw [getNode_append, hg]
              cases hf : es.find? "package.json" with
              | some n2 => simp [Option.bind, getNode, hf]
              | none => rw [hf] at hpj; simp at hpj
            · exact h
          split
          · rename_i hex
            intro e
            obtain ⟨content, hc, e'⟩ := except_bind_ok e
            exact foldlM_except_inv
              (fun ds a r2 hds e2 => hstep (file ++ "/index.js") ds a r2 hds e2)
              _ _ res (insertUniq_forall hdp hex) e'
          · intro e; cases e; exact hdp
        | file c =>
          dsimp only
          split
          · rename_i hex
            intro e
            obtain ⟨content, hc, e'⟩ := except_bind_ok e
            exact foldlM_except_inv
              (fun ds a r2 hds e2 => hstep file ds a r2 hds e2)
              _ _ res (insertUniq_forall h hex) e'
          · intro e; cases e; exact h
      | none =>
        dsimp only
        split
        · rename_i hex
          intro e
          obtain ⟨content, hc, e'⟩ := except_bind_ok e
          exact foldlM_except_inv
            (fun ds a r2 hds e2 => hstep file ds a r2 hds e2)
            _ _ res (insertUniq_forall h hex) e'
        · intro e; cases e; exact h

/-- **C10** Every path in the list returned by `collectExternalModules`
names a file that exists under `<standaloneRoot>/node_modules` at the time
of return: a specifier is added to the traced set only after its resolved
file (or, for a directory specifier, its `package.json` and `index.js`)
has been confirmed to exist, and nonexistent specifiers are dropped without
being recorded. -/
theorem c10_traced_paths_exist (t : Node) (standalone serverDir : List String)
    (deps : List String)
    (h : collectExternalModules t standalone serverDir = .ok deps) :
    ∀ f ∈ deps, pathExists t (specPath standalone f) = true := by
  unfold collectExternalModules at h
  obtain ⟨seeds, hs, h'⟩ := except_bind_ok h
  exact foldlM_except_inv
    (fun ds a res hds e => traceDep_exists t standalone _ ds a res hds e)
    seeds [] deps (by simp) h'

/-- Witness: the traced closure of the concrete chunk tree resolves to an
existing file. -/
theorem c10_traced_paths_exist_witness :
    pathExists c10Tree (specPath ["s"] "next/dist/compiled/react/index.js") = true :=
  c10_traced_paths_exist c10Tree ["s"] ["s"]
    ["next/dist/compiled/react/index.js"] (by rfl)
    "next/dist/compiled/react/index.js" (by simp)

/-- **C5** For every build context recording a non-empty `assetPrefix`, the
embed set omits every shared static asset and still includes exactly the
public files and the runtime files; when the `assetPrefix` is empty or
absent from the context object, all three sets are embedded. -/
theorem c5_asset_prefix_skip (ctx : String) (st pu ru : List Asset) :
    ((∃ p, parseAssetPrefix ctx = some p ∧ p ≠ "") →
      embedSelect (parseAssetPrefix ctx) st pu ru = pu ++ ru ∧
      ∀ a, a ∈ embedSelect (parseAssetPrefix ctx) st pu ru ↔
        (a ∈ pu ∨ a ∈ ru)) ∧
    ((parseAssetPrefix ctx = some "" ∨ parseAssetPrefix ctx = none) →
      embedSelect (parseAssetPrefix ctx) st pu ru = st ++ pu ++ ru) := by
  constructor
  · rintro ⟨p, hp, hne⟩
    have ht : assetPrefixTruthy (parseAssetPrefix ctx) = true := by
      rw [hp]
      simpa [assetPrefixTruthy] using hne
    refine ⟨by simp [embedSelect, ht], ?_⟩
    intro a
    simp [embedSelect, ht, List.mem_append]
  · intro h
    have ht : assetPrefixTruthy (parseAssetPrefix ctx) = false := by
      rcases h with h | h <;> simp [h, assetPrefixTruthy]
    simp [embedSelect, ht]

/-- Witness: concrete context strings as the build hook writes them, with a
CDN prefix and with an empty prefix. -/
theorem c5_asset_prefix_skip_witness :
    embedSelect
        (parseAssetPrefix "\x7b\"distDir\":\"d\",\"projectDir\":\"p\",\"assetPrefix\":\"https://cdn.example.com\"\x7d")
        [⟨["d", "static", "a.js"], "a.js", "/_next/static/a.js"⟩]
        [⟨["p", "public", "f.ico"], "f.ico", "/f.ico"⟩]
        [⟨["s", ".next", "BUILD_ID"], "BUILD_ID", "__runtime/.next/BUILD_ID"⟩] =
      [⟨["p", "public", "f.ico"], "f.ico", "/f.ico"⟩] ++
        [⟨["s", ".next", "BUILD_ID"], "BUILD_ID", "__runtime/.next/BUILD_ID"⟩] ∧
    embedSelect
        (parseAssetPrefix "\x7b\"distDir\":\"d\",\"projectDir\":\"p\",\"assetPrefix\":\"\"\x7d")
        [⟨["d", "static", "a.js"], "a.js", "/_next/static/a.js"⟩]
        [⟨["p", "public", "f.ico"], "f.ico", "/f.ico"⟩]
        [⟨["s", ".next", "BUILD_ID"], "BUILD_ID", "__runtime/.next/BUILD_ID"⟩] =
      [⟨["d", "static", "a.js"], "a.js", "/_next/static/a.js"⟩] ++
        [⟨["p", "public", "f.ico"], "f.ico", "/f.ico"⟩] ++
        [⟨["s", ".next", "BUILD_ID"], "BUILD_ID", "__runtime/.next/BUILD_ID"⟩] :=
  ⟨((c5_asset_prefix_skip
      "\x7b\"distDir\":\"d\",\"projectDir\":\"p\",\"assetPrefix\":\"https://cdn.example.com\"\x7d"
      [⟨["d", "static", "a.js"], "a.js", "/_next/static/a.js"⟩]
      [⟨["p", "public", "f.ico"], "f.ico", "/f.ico"⟩]
      [⟨["s", ".next", "BUILD_ID"], "BUILD_ID", "__runtime/.next/BUILD_ID"⟩]).1
    ⟨"https://cdn.example.com", by rfl, by decide⟩).1,
   (c5_asset_prefix_skip
      "\x7b\"distDir\":\"d\",\"projectDir\":\"p\",\"assetPrefix\":\"\"\x7d"
      [⟨["d", "static", "a.js"], "a.js", "/_next/static/a.js"⟩]
      [⟨["p", "public", "f.ico"], "f.ico", "/f.ico"⟩]
      [⟨["s", ".next", "BUILD_ID"], "BUILD_ID", "__runtime/.next/BUILD_ID"⟩]).2
    (Or.inl (by rfl))⟩

theorem Entries.find?_set_self :
    (es : Entries) → (s : String) → (v : Node) →
      (es.set s v).find? s = some v
  | .nil, s, v => by simp [Entries.set, Entries.find?]
  | .cons n node rest, s, v => by
    unfold Entries.set
    by_cases h : n = s
    · simp [h, Entries.find?]
    · simp [h, Entries.find?, Entries.find?_set_self rest s v]

/-- Reading back a file just written yields the written content. -/
theorem readFileAt_writeFileAt_self :
    ∀ (p : List String) (t t' : Node) (c : String),
      writeFileAt t p c = .ok t' → readFileAt t' p = .ok c := by
  intro p
  induction p with
  | nil =>
    intro t t' c h
    cases t <;> (unfold writeFileAt at h; exact absurd h (by simp))
  | cons s rest ih =>
    intro t t' c h
    cases t with
    | file c0 => exact absurd h (by simp [writeFileAt])
    | dir es =>
      cases rest with
      | nil =>
        unfold writeFileAt at h
        revert h
        cases hf : es.find? s with
        | some n =>
          cases n with
          | dir es2 => intro h; exact absurd h (by simp)
          | file c2 =>
            intro h
            simp only [Except.ok.injEq] at h
            subst h
            simp [readFileAt, getNode, Entries.find?_set_self]
        | none =>
          intro h
          simp only [Except.ok.injEq] at h
          subst h
          simp [readFileAt, getNode, Entries.find?_set_self]
      | cons s' rest' =>
        unfold writeFileAt at h
        revert h
        cases hf : es.find? s with
        | none => intro h; exact absurd h (by simp)
        | some n =>
          intro h
          obtain ⟨n', hw, h'⟩ := except_bind_ok h
          simp only [Except.ok.injEq] at h'
          subst h'
          have := ih n n' c hw
          unfold readFileAt at this ⊢
          simp only [getNode, Entries.find?_set_self]
          exact this

/-- `writeFileSync` failures carry one of the four short errno strings. -/
theorem writeFileAt_error_cases :
    ∀ (p : List String) (t : Node) (c e : String),
      writeFileAt t p c = .error e →
      e = "EISDIR-root" ∨ e = "EISDIR" ∨ e = "ENOTDIR" ∨ e = "ENOENT" := by
  intro p
  induction p with
  | nil =>
    intro t c e h
    cases t with
    | file c0 =>
      unfold writeFileAt at h
      simp only [Except.error.injEq] at h
      subst h
      simp
    | dir es =>
      unfold writeFileAt at h
      simp only [Except.error.injEq] at h
      subst h
      simp
  | cons s rest ih =>
    intro t c e h
    cases t with
    | file c0 =>
      unfold writeFileAt at h
      simp only [Except.error.injEq] at h
      subst h
      simp
    | dir es =>
      cases rest with
      | nil =>
        unfold writeFileAt at h
        revert h
        cases hf : es.find? s with
        | some n =>
          cases n with
          | dir es2 =>
            intro h
            simp only [Except.error.injEq] at h
            subst h
            simp
          | file c2 => intro h; exact absurd h (by simp)
        | none => intro h; exact absurd h (by simp)
      | cons s' rest' =>
        unfold writeFileAt at h
        revert h
        cases hf : es.find? s with
        | none =>
          intro h
          simp only [Except.error.injEq] at h
          subst h
          simp
        | some n =>
          intro h
          dsimp only at h
          rcases except_bind_error h with h1 | ⟨a, _, h2⟩
          · exact ih n c e h1
          · exact absurd h2 (by simp)

theorem isPrefixOf_append_self (l y : List Char) :
    l.isPrefixOf (l ++ y) = true := by
  induction l with
  | nil => simp [List.isPrefixOf]
  | cons c t ih => simp [List.isPrefixOf, ih]

theorem isPrefixOf_append_weaken :
    ∀ (l m b : List Char), l.isPrefixOf m = true →
      l.isPrefixOf (m ++ b) = true := by
  intro l
  induction l with
  | nil => intro m b _; simp [List.isPrefixOf]
  | cons a l' ih =>
    intro m b h
    cases m with
    | nil => exact absurd h (by simp [List.isPrefixOf])
    | cons c m' =>
      simp only [List.isPrefixOf, Bool.and_eq_true] at h ⊢
      exact ⟨h.1, ih m' b h.2⟩

theorem strContainsL_nil_sub (l : List Char) : strContainsL l [] = true := by
  cases l <;> simp [strContainsL, List.isPrefixOf]

theorem strContainsL_self (l : List Char) : strContainsL l l = true := by
  cases l with
  | nil => simp [strContainsL]
  | cons c t =>
    unfold strContainsL
    have h1 : (c :: t).isPrefixOf (c :: t) = true := by
      have h2 := isPrefixOf_append_self (c :: t) []
      rwa [List.append_nil] at h2
    simp [h1]

theorem strContainsL_append_left (x b sub : List Char)
    (h : strContainsL x sub = true) : strContainsL (x ++ b) sub = true := by
  induction x with
  | nil =>
    simp only [strContainsL, List.isEmpty_iff] at h
    subst h
    simp [strContainsL_nil_sub]
  | cons c t ih =>
    simp only [strContainsL, Bool.or_eq_true] at h
    rcases h with h | h
    · have := isPrefixOf_append_weaken sub (c :: t) b h
      simp [strContainsL, List.cons_append] at this ⊢
      left
      exact this
    · simp only [List.cons_append, strContainsL, Bool.or_eq_true]
      right
      exact ih h

theorem strContainsL_append_right (a l sub : List Char)
    (h : strContainsL l sub = true) : strContainsL (a ++ l) sub = true := by
  induction a with
  | nil => simpa using h
  | cons c t ih =>
    simp only [List.cons_append, strContainsL, Bool.or_eq_true]
    right
    exact ih

/-- Containment survives appending on the right. -/
theorem strContains_append_left (s b sub : String)
    (h : strContains s sub = true) : strContains (s ++ b) sub = true :=
  strContainsL_append_left s.toList b.toList sub.toList h

/-- Containment survives prepending on the left. -/
theorem strContains_append_right (a s sub : String)
    (h : strContains s sub = true) : strContains (a ++ s) sub = true :=
  strContainsL_append_right a.toList s.toList sub.toList h

theorem strContains_self (s : String) : strContains s s = true :=
  strContainsL_self s.toList

theorem M.run_mWriteFile (p : List String) (c : String) (s : St) :
    M.run (mWriteFile p c) s =
      match writeFileAt s.tree p c with
      | .ok t => (.ok (), ⟨t, s.log ++ [p]⟩)
      | .error e => (.error e, s) := rfl

theorem M.run_mMkdirp (p : List String) (s : St) :
    M.run (mMkdirp p) s =
      match mkdirpAt s.tree p with
      | .ok t => (.ok (), ⟨t, s.log ++ [p]⟩)
      | .error e => (.error e, s) := rfl

theorem Entries.find?_set_ne :
    (es : Entries) → (s : String) → (v : Node) → (x : String) → x ≠ s →
      (es.set s v).find? x = es.find? x
  | .nil, s, v, x, h => by simp [Entries.set, Entries.find?, Ne.symm h]
  | .cons n node rest, s, v, x, h => by
    unfold Entries.set
    by_cases hn : n = s
    · subst hn
      simp [Entries.find?, Ne.symm h]
    · simp only [hn, if_false]
      unfold Entries.find?
      by_cases hx : n = x
      · simp [hx]
      · simp [hx, Entries.find?_set_ne rest s v x h]

/-- A successful write changes no file other than the target. -/
theorem writeFileAt_preserves_other :
    ∀ (p : List String) (t t' : Node) (c : String),
      writeFileAt t p c = .ok t' →
      ∀ (q : List String) (c' : String), getNode t q = some (.file c') →
        q ≠ p → getNode t' q = some (.file c') := by
  intro p
  induction p with
  | nil =>
    intro t t' c h
    cases t <;> exact absurd h (by simp [writeFileAt])
  | cons s rest ih =>
    intro t t' c h q c' hq hne
    cases t with
    | file c0 => exact absurd h (by simp [writeFileAt])
    | dir es =>
      cases q with
      | nil => exact absurd hq (by simp [getNode])
      | cons qh qt =>
        by_cases hqs : qh = s
        · subst hqs
          -- same head; the tails must differ (or contradiction)
          cases rest with
          | nil =>
            unfold writeFileAt at h
            revert h
            cases hf : es.find? qh with
            | some n =>
              cases n with
              | dir es2 => intro h; exact absurd h (by simp)
              | file c2 =>
                intro h
                simp only [Except.ok.injEq] at h
                subst h
                cases qt with
                | nil => exact absurd rfl hne
                | cons a b =>
                  unfold getNode at hq
                  rw [hf] at hq
                  exact absurd hq (by simp [getNode])
            | none =>
              intro h
              simp only [Except.ok.injEq] at h
              subst h
              cases qt with
              | nil => exact absurd rfl hne
              | cons a b =>
                unfold getNode at hq
                rw [hf] at hq
                exact absurd hq (by simp)
          | cons s' rest' =>
            unfold writeFileAt at h
            revert h
            cases hf : es.find? qh with
            | none => intro h; exact absurd h (by simp)
            | some n =>
              intro h
              obtain ⟨n', hw, h'⟩ := except_bind_ok h
              simp only [Except.ok.injEq] at h'
              subst h'
              unfold getNode at hq ⊢
              rw [hf] at hq
              rw [Entries.find?_set_self]
              have hqt : qt ≠ s' :: rest' := by
                intro hcontra
                exact hne (by rw [hcontra])
              exact ih n n' c hw qt c' hq hqt
        · -- different head: untouched entry
          cases rest with
          | nil =>
            unfold writeFileAt at h
            revert h
            cases hf : es.find? s with
            | some n =>
              cases n with
              | dir es2 => intro h; exact absurd h (by simp)
              | file c2 =>
                intro h
                simp only [Except.ok.injEq] at h
                subst h
                unfold getNode at hq ⊢
                rw [Entries.find?_set_ne es s _ qh hqs]
                exact hq
            | none =>
              intro h
              simp only [Except.ok.injEq] at h
              subst h
              unfold getNode at hq ⊢
              rw [Entries.find?_set_ne es s _ qh hqs]
              exact hq
          | cons s' rest' =>
            unfold writeFileAt at h
            revert h
            cases hf : es.find? s with
            | none => intro h; exact absurd h (by simp)
            | some n =>
              intro h
              obtain ⟨n', hw, h'⟩ := except_bind_ok h
              simp only [Except.ok.injEq] at h'
              subst h'
              unfold getNode at hq ⊢
              rw [Entries.find?_set_ne es s _ qh hqs]
              exact hq

/-- Recursive directory creation never touches a file. -/
theorem mkdirpAt_preserves_files :
    ∀ (p : List String) (t t' : Node),
      mkdirpAt t p = .ok t' →
      ∀ (q : List String) (c' : String), getNode t q = some (.file c') →
        getNode t' q = some (.file c') := by
  intro p
  induction p with
  | nil =>
    intro t t' h
    cases t with
    | file c0 => exact absurd h (by simp [mkdirpAt])
    | dir es =>
      unfold mkdirpAt at h
      simp only [Except.ok.injEq] at h
      subst h
      intro q c' hq
      exact hq
  | cons s rest ih =>
    intro t t' h q c' hq
    cases t with
    | file c0 => exact absurd h (by simp [mkdirpAt])
    | dir es =>
      unfold mkdirpAt at h
      revert h
      cases hf : es.find? s with
      | some n =>
        intro h
        obtain ⟨n', hw, h'⟩ := except_bind_ok h
        simp only [Except.ok.injEq] at h'
        subst h'
        cases q with
        | nil => exact absurd hq (by simp [getNode])
        | cons qh qt =>
          by_cases hqs : qh = s
          · subst hqs
            unfold getNode at hq ⊢
            rw [hf] at hq
            rw [Entries.find?_set_self]
            exact ih n n' hw qt c' hq
          · unfold getNode at hq ⊢
            rw [Entries.find?_set_ne es s _ qh hqs]
            exact hq
      | none =>
        intro h
        obtain ⟨n', hw, h'⟩ := except_bind_ok h
        simp only [Except.ok.injEq] at h'
        subst h'
        cases q with
        | nil => exact absurd hq (by simp [getNode])
        | cons qh qt =>
          by_cases hqs : qh = s
          · subst hqs
            unfold getNode at hq
            rw [hf] at hq
            exact absurd hq (by simp)
          · unfold getNode at hq ⊢
            rw [Entries.find?_set_ne es s _ qh hqs]
            exact hq

/-- `mkdirpAt` creates no file: a path holding a file afterwards held it
before. -/
theorem mkdirpAt_no_new_files :
    ∀ (p : List String) (t t' : Node),
      mkdirpAt t p = .ok t' →
      ∀ (q : List String) (c' : String), getNode t' q = some (.file c') →
        getNode t q = some (.file c') := by
  intro p
  induction p with
  | nil =>
    intro t t' h
    cases t with
    | file c0 => exact absurd h (by simp [mkdirpAt])
    | dir es =>
      unfold mkdirpAt at h
      simp only [Except.ok.injEq] at h
      subst h
      intro q c' hq
      exact hq
  | cons s rest ih =>
    intro t t' h q c' hq
    cases t with
    | file c0 => exact absurd h (by simp [mkdirpAt])
    | dir es =>
      unfold mkdirpAt at h
      revert h
      cases hf : es.find? s with
      | some n =>
        intro h
        obtain ⟨n', hw, h'⟩ := except_bind_ok h
        simp only [Except.ok.injEq] at h'
        subst h'
        cases q with
        | nil => exact absurd hq (by simp [getNode])
        | cons qh qt =>
          by_cases hqs : qh = s
          · subst hqs
            unfold getNode at hq ⊢
            rw [Entries.find?_set_self] at hq
            rw [hf]
            exact ih n n' hw qt c' hq
          · unfold getNode at hq ⊢
            rw [Entries.find?_set_ne es s _ qh hqs] at hq
            exact hq
      | none =>
        intro h
        obtain ⟨n', hw, h'⟩ := except_bind_ok h
        simp only [Except.ok.injEq] at h'
        subst h'
        cases q with
        | nil => exact absurd hq (by simp [getNode])
        | cons qh qt =>
          by_cases hqs : qh = s
          · subst hqs
            unfold getNode at hq
            rw [Entries.find?_set_self] at hq
            have h0 := ih (.dir .nil) n' hw qt c' hq
            cases qt with
            | nil => exact absurd h0 (by simp [getNode])
            | cons a b => exact absurd h0 (by simp [getNode, Entries.find?])
          · unfold getNode at hq ⊢
            rw [Entries.find?_set_ne es s _ qh hqs] at hq
            exact hq

theorem M.run_mExists (p : List String) (s : St) :
    M.run (mExists p) s = (.ok (pathExists s.tree p), s) := rfl

theorem preservesFiles_pure {α : Type} (a : α) :
    PreservesFiles (Pure.pure a : M α) := by
  intro s r s' hrun q c hq
  rw [M.run_pure] at hrun
  cases hrun
  exact hq

theorem preservesFiles_mLift {α : Type} (f : St → Except String α) :
    PreservesFiles (mLift f) := by
  intro s r s' hrun q c hq
  rw [M.run_mLift] at hrun
  cases hrun
  exact hq

theorem list_forM_nil {α : Type} (f : α → M Unit) :
    ([] : List α).forM f = Pure.pure PUnit.unit := rfl

theorem list_forM_cons {α : Type} (a : α) (l : List α) (f : α → M Unit) :
    (a :: l).forM f = (f a >>= fun _ => l.forM f) := rfl

theorem preservesFiles_bind {α β : Type} {x : M α} {f : α → M β}
    (hx : PreservesFiles x) (hf : ∀ a, PreservesFiles (f a)) :
    PreservesFiles (x >>= f) := by
  intro s r s' hrun q c hq
  rw [M.run_bind] at hrun
  revert hrun
  cases hx0 : M.run x s with
  | mk r1 s1 =>
    cases r1 with
    | ok a =>
      intro hrun
      exact hf a _ r s' hrun q c (hx s (.ok a) _ hx0 q c hq)
    | error e =>
      intro hrun
      cases hrun
      exact hx s (.error e) _ hx0 q c hq

theorem preservesFiles_forM {α : Type} (l : List α) (f : α → M Unit)
    (hf : ∀ a ∈ l, PreservesFiles (f a)) : PreservesFiles (l.forM f) := by
  induction l with
  | nil =>
    intro s r s' hrun q c hq
    rw [list_forM_nil, M.run_pure] at hrun
    cases hrun
    exact hq
  | cons a rest ih =>
    rw [list_forM_cons]
    exact preservesFiles_bind (hf a (by simp))
      (fun _ => ih (fun b hb => hf b (by simp [hb])))

theorem preservesFiles_mMkdirp (p : List String) :
    PreservesFiles (mMkdirp p) := by
  intro s r s' hrun q c hq
  rw [M.run_mMkdirp] at hrun
  revert hrun
  cases hm : mkdirpAt s.tree p with
  | ok t =>
    intro hrun
    cases hrun
    exact mkdirpAt_preserves_files p s.tree t hm q c hq
  | error e =>
    intro hrun
    cases hrun
    exact hq

theorem preservesFiles_stubWrite (p : List String) (c : String) :
    PreservesFiles (stubWrite p c) := by
  intro s r s' hrun q c0 hq
  unfold stubWrite at hrun
  rw [M.run_bind, M.run_mExists] at hrun
  dsimp only at hrun
  revert hrun
  cases hex : pathExists s.tree p with
  | true =>
    intro hrun
    rw [if_pos rfl] at hrun
    rw [M.run_pure] at hrun
    cases hrun
    exact hq
  | false =>
    intro hrun
    rw [if_neg (by simp)] at hrun
    have hqp : q ≠ p := by
      intro hcontra
      subst hcontra
      rw [pathExists, hq] at hex
      simp at hex
    rw [M.run_bind, M.run_mExists] at hrun
    dsimp only at hrun
    revert hrun
    cases hdx : pathExists s.tree p.dropLast with
    | true =>
      intro hrun
      rw [if_pos rfl, M.run_bind, M.run_pure] at hrun
      dsimp only at hrun
      rw [M.run_mWriteFile] at hrun
      revert hrun
      cases hw : writeFileAt s.tree p c with
      | ok t =>
        intro hrun
        cases hrun
        exact writeFileAt_preserves_other p s.tree t c hw q c0 hq hqp
      | error e =>
        intro hrun
        cases hrun
        exact hq
    | false =>
      intro hrun
      rw [if_neg (by simp), M.run_bind, M.run_mMkdirp] at hrun
      revert hrun
      cases hm : mkdirpAt s.tree p.dropLast with
      | error e =>
        intro hrun
        dsimp only at hrun
        cases hrun
        exact hq
      | ok t1 =>
        intro hrun
        dsimp only at hrun
        rw [M.run_mWriteFile] at hrun
        dsimp only at hrun
        have hq1 : getNode t1 q = some (.file c0) :=
          mkdirpAt_preserves_files _ s.tree t1 hm q c0 hq
        revert hrun
        cases hw : writeFileAt t1 p c with
        | ok t2 =>
          intro hrun
          cases hrun
          exact writeFileAt_preserves_other p t1 t2 c hw q c0 hq1 hqp
        | error e =>
          intro hrun
          cases hrun
          exact hq1

theorem preservesFiles_stubEntryRun (standalone : List String)
    (st : StubEntry) : PreservesFiles (stubEntryRun standalone st) := by
  unfold stubEntryRun
  exact preservesFiles_bind (preservesFiles_mLift _)
    (fun pkgDirs => preservesFiles_forM _ _
      (fun d _ => preservesFiles_stubWrite _ _))

/-- **C7** For every stub table entry and every resolved install location,
stub synthesis writes the placeholder only when no file already exists at
that location + subpath — an existing file is never overwritten, on any
run — and when a package has no install location at all, exactly the
single canonical default location `node_modules/<pkg>` is used, so a stub
is still created. -/
theorem c7_stub_no_overwrite_and_fallback (standalone : List String) :
    PreservesFiles (generateStubs standalone) ∧
    (∀ (fullPath : List String) (content : String) (s : St),
      pathExists s.tree fullPath = true →
      M.run (stubWrite fullPath content) s = (.ok (), s)) ∧
    (∀ st ∈ stubTable, ∀ (s : St) (u : Unit) (s' : St),
      findPackageDirs s.tree (standalone ++ ["node_modules"]) st.pkg = .ok [] →
      M.run (stubEntryRun standalone st) s = (.ok u, s') →
      (∀ q ∈ s'.log, q ∈ s.log ∨
        q = standalone ++ ["node_modules"] ++ segsOf st.pkg ++ segsOf st.subpath ∨
        q = (standalone ++ ["node_modules"] ++ segsOf st.pkg ++
          segsOf st.subpath).dropLast) ∧
      (pathExists s.tree (standalone ++ ["node_modules"] ++ segsOf st.pkg ++
          segsOf st.subpath) = false →
        getNode s'.tree (standalone ++ ["node_modules"] ++ segsOf st.pkg ++
            segsOf st.subpath) = some (.file st.content))) := by
  refine ⟨?_, ?_, ?_⟩
  · unfold generateStubs
    exact preservesFiles_forM _ _
      (fun st _ => preservesFiles_stubEntryRun standalone st)
  · intro fullPath content s hex
    unfold stubWrite
    rw [M.run_bind, M.run_mExists]
    dsimp only
    rw [hex, if_pos rfl, M.run_pure]
  · intro st _ s u s' hfind hrun
    unfold stubEntryRun at hrun
    rw [M.run_bind, M.run_mLift, hfind] at hrun
    dsimp only at hrun
    rw [if_pos (show ([] : List (List String)).isEmpty = true by rfl),
      list_forM_cons, list_forM_nil, M.run_bind] at hrun
    set target := standalone ++ ["node_modules"] ++ segsOf st.pkg ++
      segsOf st.subpath with htarget
    revert hrun
    unfold stubWrite
    rw [M.run_bind, M.run_mExists]
    dsimp only
    cases hex : pathExists s.tree target with
    | true =>
      intro hrun
      rw [if_pos rfl, M.run_pure] at hrun
      dsimp only at hrun
      rw [M.run_pure] at hrun
      cases hrun
      constructor
      · intro q hqlog
        exact Or.inl hqlog
      · intro hcontra
        exact absurd hcontra (by simp)
    | false =>
      intro hrun
      rw [if_neg (by simp), M.run_bind, M.run_mExists] at hrun
      dsimp only at hrun
      revert hrun
      cases hdx : pathExists s.tree target.dropLast with
      | true =>
        intro hrun
        rw [if_pos rfl, M.run_bind, M.run_pure] at hrun
        dsimp only at hrun
        rw [M.run_mWriteFile] at hrun
        revert hrun
        cases hw : writeFileAt s.tree target st.content with
        | error e => intro hrun; exact absurd hrun (by simp)
        | ok t =>
          intro hrun
          dsimp only at hrun
          rw [M.run_pure] at hrun
          cases hrun
          constructor
          · intro q hqlog
            rcases List.mem_append.1 hqlog with h | h
            · exact Or.inl h
            · exact Or.inr (Or.inl (List.mem_singleton.1 h))
          · intro _
            have hr := readFileAt_writeFileAt_self target s.tree t st.content hw
            unfold readFileAt at hr
            revert hr
            cases hg : getNode t target with
            | none => intro hr; cases hr
            | some n =>
              cases n with
              | file cf =>
                intro hr
                simp only [Except.ok.injEq] at hr
                rw [hr]
              | dir es2 => intro hr; cases hr
      | false =>
        intro hrun
        rw [if_neg (by simp), M.run_bind, M.run_mMkdirp] at hrun
        revert hrun
        cases hm : mkdirpAt s.tree target.dropLast with
        | error e => intro hrun; dsimp only at hrun; exact absurd hrun (by simp)
        | ok t1 =>
          intro hrun
          dsimp only at hrun
          rw [M.run_mWriteFile] at hrun
          dsimp only at hrun
          revert hrun
          cases hw : writeFileAt t1 target st.content with
          | error e => intro hrun; exact absurd hrun (by simp)
          | ok t2 =>
            intro hrun
            dsimp only at hrun
            rw [M.run_pure] at hrun
            cases hrun
            constructor
            · intro q hqlog
              rcases List.mem_append.1 hqlog with h | h
              · rcases List.mem_append.1 h with h2 | h2
                · exact Or.inl h2
                · exact Or.inr (Or.inr (List.mem_singleton.1 h2))
              · exact Or.inr (Or.inl (List.mem_singleton.1 h))
            · intro _
              have hr := readFileAt_writeFileAt_self target t1 t2 st.content hw
              unfold readFileAt at hr
              revert hr
              cases hg : getNode t2 target with
              | none => intro hr; cases hr
              | some n =>
                cases n with
                | file cf =>
                  intro hr
                  simp only [Except.ok.injEq] at hr
                  rw [hr]
                | dir es2 => intro hr; cases hr

/-- Witness: a pre-existing file at a stub location is untouched, and on a
tree with no installed `critters` package the fallback stub is created at
the canonical default location. -/
theorem c7_stub_no_overwrite_and_fallback_witness :
    M.run (stubWrite ["s", "node_modules", "next", "f.js"] "stub")
        ⟨mkFs [(["s", "node_modules", "next", "f.js"], "real")], []⟩ =
      (.ok (), ⟨mkFs [(["s", "node_modules", "next", "f.js"], "real")], []⟩) ∧
    getNode (M.run (stubEntryRun ["s"]
          ⟨"critters", "index.js", "module.exports = \x7b\x7d;"⟩)
        ⟨mkFs [(["s", "server.js"], "x")], []⟩).2.tree
        (["s"] ++ ["node_modules"] ++ segsOf "critters" ++ segsOf "index.js") =
      some (.file "module.exports = \x7b\x7d;") :=
  ⟨(c7_stub_no_overwrite_and_fallback ["s"]).2.1
      ["s", "node_modules", "next", "f.js"] "stub"
      ⟨mkFs [(["s", "node_modules", "next", "f.js"], "real")], []⟩ (by rfl),
   ((c7_stub_no_overwrite_and_fallback ["s"]).2.2
      ⟨"critters", "index.js", "module.exports = \x7b\x7d;"⟩ (by decide)
      ⟨mkFs [(["s", "server.js"], "x")], []⟩ ()
      (M.run (stubEntryRun ["s"]
          ⟨"critters", "index.js", "module.exports = \x7b\x7d;"⟩)
        ⟨mkFs [(["s", "server.js"], "x")], []⟩).2
      (by rfl) (by rfl)).2 (by rfl)⟩

/-- A successful write leaves every prefix-unrelated path untouched. -/
theorem writeFileAt_getNode_disjoint :
    ∀ (p : List String) (t t' : Node) (c : String),
      writeFileAt t p c = .ok t' →
      ∀ (q : List String), ¬ q <+: p → ¬ p <+: q →
        getNode t' q = getNode t q := by
  intro p
  induction p with
  | nil =>
    intro t t' c h
    cases t <;> exact absurd h (by simp [writeFileAt])
  | cons s rest ih =>
    intro t t' c h q h1 h2
    cases t with
    | file c0 => exact absurd h (by simp [writeFileAt])
    | dir es =>
      cases q with
      | nil => exact absurd List.nil_prefix h1
      | cons qh qt =>
        by_cases hqs : qh = s
        · subst hqs
          have h1' : ¬ qt <+: rest := fun hc => h1 (List.cons_prefix_cons.2 ⟨rfl, hc⟩)
          have h2' : ¬ rest <+: qt := fun hc => h2 (List.cons_prefix_cons.2 ⟨rfl, hc⟩)
          cases rest with
          | nil => exact absurd List.nil_prefix h2'
          | cons s' rest' =>
            unfold writeFileAt at h
            revert h
            cases hf : es.find? qh with
            | none => intro h; exact absurd h (by simp)
            | some n =>
              intro h
              obtain ⟨n', hw, h'⟩ := except_bind_ok h
              simp only [Except.ok.injEq] at h'
              subst h'
              unfold getNode
              rw [Entries.find?_set_self, hf]
              exact ih n n' c hw qt h1' h2'
        · cases rest with
          | nil =>
            unfold writeFileAt at h
            revert h
            cases hf : es.find? s with
            | some n =>
              cases n with
              | dir es2 => intro h; exact absurd h (by simp)
              | file c2 =>
                intro h
                simp only [Except.ok.injEq] at h
                subst h
                unfold getNode
                rw [Entries.find?_set_ne es s _ qh hqs]
            | none =>
              intro h
              simp only [Except.ok.injEq] at h
              subst h
              unfold getNode
              rw [Entries.find?_set_ne es s _ qh hqs]
          | cons s' rest' =>
            unfold writeFileAt at h
            revert h
            cases hf : es.find? s with
            | none => intro h; exact absurd h (by simp)
            | some n =>
              intro h
              obtain ⟨n', hw, h'⟩ := except_bind_ok h
              simp only [Except.ok.injEq] at h'
              subst h'
              unfold getNode
              rw [Entries.find?_set_ne es s _ qh hqs]

/-- Overwriting an existing file always succeeds. -/
theorem writeFileAt_ok_of_file :
    ∀ (p : List String) (t : Node) (c0 c' : String),
      p ≠ [] → getNode t p = some (.file c0) →
      ∃ t', writeFileAt t p c' = .ok t' := by
  intro p
  induction p with
  | nil => intro t c0 c' hne; exact absurd rfl hne
  | cons s rest ih =>
    intro t c0 c' _ hg
    cases t with
    | file c1 => exact absurd hg (by simp [getNode])
    | dir es =>
      unfold getNode at hg
      revert hg
      cases hf : es.find? s with
      | none => intro hg; exact absurd hg (by simp)
      | some n =>
        intro hg
        cases rest with
        | nil =>
          cases n with
          | dir es2 => exact absurd hg (by simp [getNode])
          | file c2 =>
            refine ⟨.dir (es.set s (.file c')), ?_⟩
            unfold writeFileAt
            rw [hf]
        | cons s' rest' =>
          obtain ⟨t2, hw⟩ := ih n c0 c' (by simp) hg
          refine ⟨.dir (es.set s t2), ?_⟩
          unfold writeFileAt
          rw [hf]
          dsimp only
          rw [hw]
          rfl

theorem M.run_mReadFile (p : List String) (s : St) :
    M.run (mReadFile p) s = (readFileAt s.tree p, s) := rfl

theorem hookPathOf_ne_nil (d : List String) : hookPathOf d ≠ [] := by
  unfold hookPathOf
  simp [show segsOf "dist/server/require-hook.js" =
    ["dist", "server", "require-hook.js"] from rfl]

/-- What one iteration of the patch loop does: success always, the hook
path transformed by `patchResult`, everything prefix-unrelated untouched. -/
theorem patchDirRun_spec (d : List String) (s : St)
    (hnd : isDirAt s.tree (hookPathOf d) = false) :
    ∃ s', M.run (patchDirRun d) s = (.ok (), s') ∧
      (∀ q, SegDisjoint q (hookPathOf d) →
        getNode s'.tree q = getNode s.tree q) ∧
      getNode s'.tree (hookPathOf d) =
        patchResult (getNode s.tree (hookPathOf d)) := by
  cases hg : getNode s.tree (hookPathOf d) with
  | none =>
    refine ⟨s, ?_, fun q _ => rfl, by rw [hg]; rfl⟩
    unfold patchDirRun
    rw [M.run_bind, M.run_mExists]
    dsimp only
    rw [if_neg (by simp [pathExists, hg]), M.run_pure]
  | some n =>
    cases n with
    | dir es2 => exact absurd hnd (by simp [isDirAt, hg])
    | file c =>
      have hex : pathExists s.tree (hookPathOf d) = true := by
        simp [pathExists, hg]
      have hr : readFileAt s.tree (hookPathOf d) = .ok c := by
        rw [readFileAt, hg]
      cases hc : strContains c requireHookTarget with
      | false =>
        refine ⟨s, ?_, fun q _ => rfl, by rw [hg]; simp [patchResult, hc]⟩
        unfold patchDirRun
        rw [M.run_bind, M.run_mExists]
        dsimp only
        rw [if_pos hex, M.run_bind, M.run_mReadFile, hr]
        dsimp only
        rw [if_neg (by simp [hc]), M.run_pure]
      | true =>
        obtain ⟨t', hw⟩ := writeFileAt_ok_of_file (hookPathOf d) s.tree c
          (replaceFirst c requireHookTarget requireHookReplacement)
          (hookPathOf_ne_nil d) hg
        refine ⟨⟨t', s.log ++ [hookPathOf d]⟩, ?_, ?_, ?_⟩
        · unfold patchDirRun
          rw [M.run_bind, M.run_mExists]
          dsimp only
          rw [if_pos hex, M.run_bind, M.run_mReadFile, hr]
          dsimp only
          rw [if_pos (by simp [hc]), M.run_mWriteFile, hw]
        · intro q hq
          exact writeFileAt_getNode_disjoint _ _ _ _ hw q hq.1 hq.2
        · have hrb := readFileAt_writeFileAt_self _ _ _ _ hw
          unfold readFileAt at hrb
          revert hrb
          cases hg2 : getNode t' (hookPathOf d) with
          | none => intro hrb; cases hrb
          | some n2 =>
            cases n2 with
            | dir es3 => intro hrb; cases hrb
            | file cf =>
              intro hrb
              simp only [Except.ok.injEq] at hrb
              rw [hrb]
              simp [patchResult, hc]

theorem segDisjoint_symm {a b : List String} (h : SegDisjoint a b) :
    SegDisjoint b a := ⟨h.2, h.1⟩

/-- The patch loop over a list of prefix-unrelated install locations:
success, each hook path transformed by `patchResult`, everything else
untouched. -/
theorem patchForM_spec :
    ∀ (dirs : List (List String)) (s : St),
      (∀ d ∈ dirs, isDirAt s.tree (hookPathOf d) = false) →
      dirs.Pairwise (fun d1 d2 => SegDisjoint (hookPathOf d1) (hookPathOf d2)) →
      ∃ s', M.run (dirs.forM patchDirRun) s = (.ok (), s') ∧
        (∀ q, (∀ d ∈ dirs, SegDisjoint q (hookPathOf d)) →
          getNode s'.tree q = getNode s.tree q) ∧
        ∀ d ∈ dirs, getNode s'.tree (hookPathOf d) =
          patchResult (getNode s.tree (hookPathOf d)) := by
  intro dirs
  induction dirs with
  | nil =>
    intro s _ _
    exact ⟨s, by rw [list_forM_nil, M.run_pure], fun q _ => rfl, by simp⟩
  | cons d rest ih =>
    intro s hnd hpw
    obtain ⟨s1, hrun1, hunch1, hself1⟩ := patchDirRun_spec d s (hnd d (by simp))
    have hpwhead : ∀ d' ∈ rest, SegDisjoint (hookPathOf d) (hookPathOf d') :=
      (List.pairwise_cons.1 hpw).1
    have hnd' : ∀ d' ∈ rest, isDirAt s1.tree (hookPathOf d') = false := by
      intro d' hd'
      have heq : getNode s1.tree (hookPathOf d') = getNode s.tree (hookPathOf d') :=
        hunch1 _ (segDisjoint_symm (hpwhead d' hd'))
      have h0 := hnd d' (by simp [hd'])
      unfold isDirAt at h0 ⊢
      rw [heq]
      exact h0
    obtain ⟨s', hrun2, hunch2, hself2⟩ := ih s1 hnd' (List.pairwise_cons.1 hpw).2
    refine ⟨s', ?_, ?_, ?_⟩
    · rw [list_forM_cons, M.run_bind, hrun1]
      exact hrun2
    · intro q hq
      rw [hunch2 q (fun d' hd' => hq d' (by simp [hd'])), hunch1 q (hq d (by simp))]
    · intro d' hd'
      rcases List.mem_cons.1 hd' with rfl | hmem
      · rw [hunch2 _ (fun d2 hd2 => hpwhead d2 hd2), hself1]
      · rw [hself2 d' hmem, hunch1 _ (segDisjoint_symm (hpwhead d' hmem))]

/-- **C8 counterexample** The claim says the runtime-patch applier never
raises for any input tree; on a tree where `node_modules/.bun` is a regular
file, the bun-layout scan's `readdirSync` throws and `patchRequireHook`
raises. -/
theorem c8_patch_raises_counterexample :
    (M.run (patchRequireHook ["s"]) ⟨c8Tree, []⟩).1 = .error "ENOTDIR" := rfl

/-- **C8** (amended) Whenever the install-location resolution itself
succeeds (in particular `node_modules/.bun`, if present, is a directory),
every resolved location's hook path is not a directory, and the resolved
locations are prefix-unrelated, the runtime-patch applier never raises:
for every location, when the fixed internal file is missing or its content
does not contain the exact resolve-assignment fragment the file is left
byte-for-byte unchanged and the run continues, and the replacement (of the
first occurrence) is applied exactly when the fragment is present — all
captured by `patchResult`. -/
theorem c8_patch_never_fails_amended (standalone : List String) (s : St)
    (nextDirs : List (List String))
    (hdirs : findPackageDirs s.tree (standalone ++ ["node_modules"]) "next" =
      .ok nextDirs)
    (hnd : ∀ d ∈ nextDirs, isDirAt s.tree (hookPathOf d) = false)
    (hpw : nextDirs.Pairwise
      (fun d1 d2 => SegDisjoint (hookPathOf d1) (hookPathOf d2))) :
    ∃ s', M.run (patchRequireHook standalone) s = (.ok (), s') ∧
      ∀ d ∈ nextDirs, getNode s'.tree (hookPathOf d) =
        patchResult (getNode s.tree (hookPathOf d)) := by
  obtain ⟨s', hrun, _, hself⟩ := patchForM_spec nextDirs s hnd hpw
  refine ⟨s', ?_, hself⟩
  unfold patchRequireHook
  rw [M.run_bind, M.run_mLift, hdirs]
  exact hrun

/-- Witness: one install location whose hook contains the exact fragment;
the run succeeds and the fragment is replaced. -/
theorem c8_patch_never_fails_amended_witness :
    ∃ s', M.run (patchRequireHook ["s"]) ⟨c8GoodTree, []⟩ = (.ok (), s') ∧
      ∀ d ∈ [["s", "node_modules", "next"]],
        getNode s'.tree (hookPathOf d) =
          patchResult (getNode c8GoodTree (hookPathOf d)) :=
  c8_patch_never_fails_amended ["s"] ⟨c8GoodTree, []⟩
    [["s", "node_modules", "next"]] (by rfl) (by decide) (by simp)

theorem normSegsAux_id (l : List String)
    (h : CleanSegs l) : ∀ acc, normSegsAux acc l = acc.reverse ++ l := by
  induction l with
  | nil => intro acc; simp [normSegsAux]
  | cons x rest ih =>
    intro acc
    obtain ⟨h1, h2⟩ := h x (by simp)
    unfold normSegsAux
    rw [if_neg h1, if_neg h2]
    rw [ih (fun y hy => h y (by simp [hy])) (x :: acc)]
    simp

theorem normSegs_id (l : List String) (h : CleanSegs l) : normSegs l = l := by
  unfold normSegs
  rw [normSegsAux_id l h []]
  rfl

theorem insertUniq_mem_self (l : List String) (x : String) :
    x ∈ insertUniq l x := by
  unfold insertUniq
  split
  · assumption
  · simp

theorem insertUniq_mem_mono {l : List String} {y : String} (x : String)
    (h : y ∈ l) : y ∈ insertUniq l x := by
  unfold insertUniq
  split
  · exact h
  · simp [h]

/-- The visited set only grows. -/
theorem traceDep_mono (t : Node) (standalone : List String) (y : String) :
    ∀ (fuel : Nat) (deps : List String) (file : String) (res : List String),
      traceDep t standalone fuel deps file = .ok res → y ∈ deps → y ∈ res := by
  intro fuel
  induction fuel with
  | zero =>
    intro deps file res e hy
    unfold traceDep at e
    cases e
    exact hy
  | succ fuel ih =>
    intro deps file res e hy
    have hstep : ∀ (fl : String) (ds : List String) (req : String)
        (res2 : List String), y ∈ ds →
        (if strStartsWith req "." then
            traceDep t standalone fuel ds
              (if strEndsWith (joinStr [fl, "..", req]) ".js" then
                 joinStr [fl, "..", req]
               else joinStr [fl, "..", req] ++ ".js")
          else if strStartsWith req "next/" then
            traceDep t standalone fuel ds
              (if strEndsWith req ".js" then req else req ++ ".js")
          else Except.ok ds) = .ok res2 → y ∈ res2 := by
      intro fl ds req res2 hds e2
      split at e2
      · exact ih ds _ res2 e2 hds
      · split at e2
        · exact ih ds _ res2 e2 hds
        · cases e2; exact hds
    unfold traceDep at e
    split at e
    · cases e; exact hy
    · dsimp only at e
      revert e
      cases hg : getNode t (specPath standalone file) with
      | some n =>
        cases n with
        | dir es =>
          dsimp only
          split
          · intro e
            obtain ⟨content, hc, e'⟩ := except_bind_ok e
            refine foldlM_except_inv
              (fun ds a r2 hds e2 => hstep (file ++ "/index.js") ds a r2 hds e2)
              _ _ res ?_ e'
            refine insertUniq_mem_mono _ ?_
            split
            · exact insertUniq_mem_mono _ hy
            · exact hy
          · intro e
            cases e
            split
            · exact insertUniq_mem_mono _ hy
            · exact hy
        | file c =>
          dsimp only
          split
          · intro e
            obtain ⟨content, hc, e'⟩ := except_bind_ok e
            exact foldlM_except_inv
              (fun ds a r2 hds e2 => hstep file ds a r2 hds e2)
              _ _ res (insertUniq_mem_mono _ hy) e'
          · intro e; cases e; exact hy
      | none =>
        dsimp only
        split
        · intro e
          obtain ⟨content, hc, e'⟩ := except_bind_ok e
          exact foldlM_except_inv
            (fun ds a r2 hds e2 => hstep file ds a r2 hds e2)
            _ _ res (insertUniq_mem_mono _ hy) e'
        · intro e; cases e; exact hy

/-- A seed whose path resolves to an existing file is in the trace result. -/
theorem traceDep_seed_mem (t : Node) (standalone : List String)
    (fuel : Nat) (deps : List String) (spec : String) (res : List String)
    (fc : String)
    (hfile : getNode t (specPath standalone spec) = some (.file fc))
    (h : traceDep t standalone (fuel + 1) deps spec = .ok res) :
    spec ∈ res := by
  unfold traceDep at h
  split at h
  · cases h; assumption
  · dsimp only at h
    rw [hfile] at h
    dsimp only at h
    rw [if_pos (by simp [pathExists, hfile])] at h
    obtain ⟨content, hc, h'⟩ := except_bind_ok h
    exact foldlM_except_inv
      (fun ds a r2 hds e2 => by
        revert e2
        split
        · intro e2; exact traceDep_mono t standalone spec fuel ds _ r2 e2 hds
        · split
          · intro e2; exact traceDep_mono t standalone spec fuel ds _ r2 e2 hds
          · intro e2; cases e2; exact hds)
      _ _ res (insertUniq_mem_self _ _) h'

theorem cleanSegs_append {a b : List String} (ha : CleanSegs a)
    (hb : CleanSegs b) : CleanSegs (a ++ b) := by
  intro x hx
  rcases List.mem_append.1 hx with h | h
  · exact ha x h
  · exact hb x h

/-- The mirror loop: files under `node_modules` are never modified, a
mirror copy consistent with its source stays consistent, on success every
listed module with an existing source file ends up mirrored with that
content, and every write lands at a mirror destination. -/
theorem mirror_loop_spec (standalone serverDir : List String)
    (hstc : CleanSegs standalone) (hsvc : CleanSegs serverDir)
    (hdisj : SegDisjoint (standalone ++ ["node_modules"])
      (serverDir ++ [".next", "__external"])) :
    ∀ (mods : List String) (acc : List Asset) (s : St)
      (r : Except String (List Asset)) (s' : St),
      (∀ mod ∈ mods, CleanSegs (splitSlash mod)) →
      M.run (List.foldlM (mirrorStep standalone serverDir) acc mods) s = (r, s') →
      ((∀ q c, (standalone ++ ["node_modules"]) <+: q →
          getNode s.tree q = some (.file c) → getNode s'.tree q = some (.file c)) ∧
       (∀ mod c, CleanSegs (splitSlash mod) →
          getNode s.tree (standalone ++ ["node_modules"] ++ splitSlash mod) =
            some (.file c) →
          getNode s.tree (serverDir ++ [".next", "__external"] ++ splitSlash mod) =
            some (.file c) →
          getNode s'.tree (serverDir ++ [".next", "__external"] ++ splitSlash mod) =
            some (.file c)) ∧
       (∀ a, r = .ok a → ∀ mod ∈ mods, ∀ c,
          getNode s.tree (standalone ++ ["node_modules"] ++ splitSlash mod) =
            some (.file c) →
          getNode s'.tree (serverDir ++ [".next", "__external"] ++ splitSlash mod) =
            some (.file c)) ∧
       (∀ q ∈ s'.log, q ∈ s.log ∨ ∃ mod ∈ mods,
          q = serverDir ++ [".next", "__external"] ++ splitSlash mod ∨
          q = (serverDir ++ [".next", "__external"] ++ splitSlash mod).dropLast)) := by
  have hnm : CleanSegs ["node_modules"] := by
    intro x hx
    rw [List.mem_singleton.1 hx]
    exact ⟨by simp, by simp⟩
  have hext : CleanSegs [".next", "__external"] := by
    intro x hx
    rcases List.mem_cons.1 hx with h | h
    · rw [h]; exact ⟨by simp, by simp⟩
    · rw [List.mem_singleton.1 h]; exact ⟨by simp, by simp⟩
  have hkey1 : ∀ mod : String, CleanSegs (splitSlash mod) →
      specPath standalone mod =
        standalone ++ ["node_modules"] ++ splitSlash mod := by
    intro mod hc
    unfold specPath
    exact normSegs_id _ (cleanSegs_append (cleanSegs_append hstc hnm) hc)
  have hkey2 : ∀ mod : String, CleanSegs (splitSlash mod) →
      normSegs (serverDir ++ [".next", "__external"] ++ splitSlash mod) =
        serverDir ++ [".next", "__external"] ++ splitSlash mod := by
    intro mod hc
    exact normSegs_id _ (cleanSegs_append (cleanSegs_append hsvc hext) hc)
  have hprefs : ∀ mod : String, (standalone ++ ["node_modules"]) <+:
      standalone ++ ["node_modules"] ++ splitSlash mod := by
    intro mod
    exact List.prefix_append _ _
  have hnodest : ∀ (q segs : List String),
      (standalone ++ ["node_modules"]) <+: q →
      q = serverDir ++ [".next", "__external"] ++ segs → False := by
    intro q segs hpre heq
    subst heq
    have hsv : (serverDir ++ [".next", "__external"]) <+:
        serverDir ++ [".next", "__external"] ++ segs :=
      List.prefix_append _ _
    rcases List.prefix_or_prefix_of_prefix hpre hsv with h | h
    · exact hdisj.1 h
    · exact hdisj.2 h
  intro mods
  induction mods with
  | nil =>
    intro acc s r s' _ hrun
    rw [List.foldlM_nil, M.run_pure] at hrun
    cases hrun
    exact ⟨fun q c _ h => h, fun mod c _ _ h => h,
      fun a _ mod hm => absurd hm (by simp),
      fun q hq => Or.inl hq⟩
  | cons m rest ih =>
    intro acc s r s' hclean hrun
    have hcm : CleanSegs (splitSlash m) := hclean m (by simp)
    have hclean' : ∀ mod ∈ rest, CleanSegs (splitSlash mod) :=
      fun mod hm => hclean mod (by simp [hm])
    rw [List.foldlM_cons, M.run_bind] at hrun
    revert hrun
    unfold mirrorStep
    dsimp only
    rw [M.run_bind, M.run_mExists]
    dsimp only
    rw [hkey1 m hcm, hkey2 m hcm]
    cases hex : getNode s.tree (standalone ++ ["node_modules"] ++ splitSlash m) with
    | none =>
      intro hrun
      rw [if_neg (show ¬(pathExists s.tree
          (standalone ++ ["node_modules"] ++ splitSlash m) = true) by
        unfold pathExists
        rw [hex]
        simp), M.run_pure] at hrun
      dsimp only at hrun
      obtain ⟨c1, c2, c3, c4⟩ := ih acc s r s' hclean' hrun
      refine ⟨c1, c2, ?_, ?_⟩
      · intro a ha mod hm c hsrcc
        rcases List.mem_cons.1 hm with rfl | hmem
        · rw [hsrcc] at hex; cases hex
        · exact c3 a ha mod hmem c hsrcc
      · intro q hq
        rcases c4 q hq with h | ⟨mod, hm, h⟩
        · exact Or.inl h
        · exact Or.inr ⟨mod, by simp [hm], h⟩
    | some node =>
      intro hrun
      rw [if_pos (show pathExists s.tree
          (standalone ++ ["node_modules"] ++ splitSlash m) = true by
        unfold pathExists
        rw [hex]
        rfl), M.run_bind, M.run_mMkdirp] at hrun
      revert hrun
      cases hmk : mkdirpAt s.tree
          ((serverDir ++ [".next", "__external"] ++ splitSlash m).dropLast) with
      | error e =>
        intro hrun
        dsimp only at hrun
        cases hrun
        exact ⟨fun q c _ h => h, fun mod c _ _ h => h,
          fun a ha => absurd ha (by simp),
          fun q hq => Or.inl hq⟩
      | ok t1 =>
        intro hrun
        dsimp only at hrun
        rw [M.run_bind, M.run_mReadFile] at hrun
        dsimp only at hrun
        revert hrun
        cases hrd : readFileAt t1
            (standalone ++ ["node_modules"] ++ splitSlash m) with
        | error e =>
          intro hrun
          dsimp only at hrun
          cases hrun
          refine ⟨?_, ?_, fun a ha => absurd ha (by simp), ?_⟩
          · intro q c _ h
            exact mkdirpAt_preserves_files _ _ _ hmk q c h
          · intro mod c _ _ h
            exact mkdirpAt_preserves_files _ _ _ hmk _ c h
          · intro q hq
            dsimp only at hq
            rcases List.mem_append.1 hq with h | h
            · exact Or.inl h
            · exact Or.inr ⟨m, by simp, Or.inr (List.mem_singleton.1 h)⟩
        | ok content =>
          intro hrun
          dsimp only at hrun
          rw [M.run_bind, M.run_mWriteFile] at hrun
          dsimp only at hrun
          revert hrun
          cases hw : writeFileAt t1
              (serverDir ++ [".next", "__external"] ++ splitSlash m) content with
          | error e =>
            intro hrun
            dsimp only at hrun
            cases hrun
            refine ⟨?_, ?_, fun a ha => absurd ha (by simp), ?_⟩
            · intro q c _ h
              exact mkdirpAt_preserves_files _ _ _ hmk q c h
            · intro mod c _ _ h
              exact mkdirpAt_preserves_files _ _ _ hmk _ c h
            · intro q hq
              dsimp only at hq
              rcases List.mem_append.1 hq with h | h
              · exact Or.inl h
              · exact Or.inr ⟨m, by simp, Or.inr (List.mem_singleton.1 h)⟩
          | ok t2 =>
            intro hrun
            dsimp only at hrun
            have hpres : ∀ q c, (standalone ++ ["node_modules"]) <+: q →
                getNode s.tree q = some (.file c) →
                getNode t2 q = some (.file c) := by
              intro q c hpre h
              have h1 := mkdirpAt_preserves_files _ _ _ hmk q c h
              exact writeFileAt_preserves_other _ _ _ _ hw q c h1
                (fun heq => hnodest q (splitSlash m) hpre heq)
            have hdest2 : getNode t2
                (serverDir ++ [".next", "__external"] ++ splitSlash m) =
                some (.file content) := by
              have hr := readFileAt_writeFileAt_self _ _ _ _ hw
              unfold readFileAt at hr
              revert hr
              cases hg2 : getNode t2
                  (serverDir ++ [".next", "__external"] ++ splitSlash m) with
              | none => intro hr; cases hr
              | some n2 =>
                cases n2 with
                | dir es3 => intro hr; cases hr
                | file cf =>
                  intro hr
                  simp only [Except.ok.injEq] at hr
                  rw [hr]
            rw [M.run_pure] at hrun
            dsimp only at hrun
            obtain ⟨c1, c2, c3, c4⟩ := ih _ _ r s' hclean' hrun
            refine ⟨?_, ?_, ?_, ?_⟩
            · intro q c hpre h
              exact c1 q c hpre (hpres q c hpre h)
            · intro mod c hcmod hsrcc hdestc
              by_cases hqe : splitSlash mod = splitSlash m
              · rw [hqe] at hsrcc hdestc ⊢
                have ht1 : getNode t1
                    (standalone ++ ["node_modules"] ++ splitSlash m) =
                    some (.file c) :=
                  mkdirpAt_preserves_files _ _ _ hmk _ c hsrcc
                have hcc : content = c := by
                  unfold readFileAt at hrd
                  rw [ht1] at hrd
                  simp only [Except.ok.injEq] at hrd
                  rw [hrd]
                rw [hcc] at hdest2
                exact c2 m c hcm (hpres _ c (hprefs m) hsrcc) hdest2
              · have hne : serverDir ++ [".next", "__external"] ++ splitSlash mod ≠
                    serverDir ++ [".next", "__external"] ++ splitSlash m := by
                  intro h
                  exact hqe (List.append_cancel_left h)
                have hdt2 : getNode t2
                    (serverDir ++ [".next", "__external"] ++ splitSlash mod) =
                    some (.file c) :=
                  writeFileAt_preserves_other _ _ _ _ hw _ c
                    (mkdirpAt_preserves_files _ _ _ hmk _ c hdestc) hne
                exact c2 mod c hcmod (hpres _ c (hprefs mod) hsrcc) hdt2
            · intro a ha mod hm c hsrcc
              rcases List.mem_cons.1 hm with rfl | hmem
              · have ht1 : getNode t1
                    (standalone ++ ["node_modules"] ++ splitSlash mod) =
                    some (.file c) :=
                  mkdirpAt_preserves_files _ _ _ hmk _ c hsrcc
                have hcc : content = c := by
                  unfold readFileAt at hrd
                  rw [ht1] at hrd
                  simp only [Except.ok.injEq] at hrd
                  rw [hrd]
                rw [hcc] at hdest2
                exact c2 mod c hcm (hpres _ c (hprefs mod) hsrcc) hdest2
              · exact c3 a ha mod hmem c (hpres _ c (hprefs mod) hsrcc)
            · intro q hq
              rcases c4 q hq with h | ⟨mod, hmod, h⟩
              · rcases List.mem_append.1 h with h2 | h2
                · rcases List.mem_append.1 h2 with h3 | h3
                  · exact Or.inl h3
                  · exact Or.inr ⟨m, by simp,
                      Or.inr (List.mem_singleton.1 h3)⟩
                · exact Or.inr ⟨m, by simp, Or.inl (List.mem_singleton.1 h2)⟩
              · exact Or.inr ⟨mod, by simp [hmod], h⟩

theorem splitSlash_ne_nil (mod : String) : splitSlash mod ≠ [] := by
  unfold splitSlash
  simp [splitSlashL_ne_nil]

/-- **C3** (amended): for a build tree where a server chunk holds
`require("next/dist/<p>")` and the specifier's resolved file exists under
the standalone root's `node_modules`, the traced external-module closure is
non-empty and contains the specifier; the mirror phase (run on
`"next/package.json"` plus the closure, exactly as `generateEntryPoint`
does) copies the resolved file byte-for-byte to
`<serverDir>/.next/__external/<p>`; and — provided the standalone and
server mirror roots are prefix-unrelated (which the original claim's
"server root differs from standalone root" does not guarantee, see the
counterexample) — no path written by the phase lies under
`<standaloneRoot>/.next/__external/`. -/
theorem c3_external_trace_and_mirror
    (t : Node) (standalone serverDir : List String)
    (seeds deps : List String) (spec fc : String)
    (s s' : St) (a : List Asset)
    (hstc : CleanSegs standalone) (hsvc : CleanSegs serverDir)
    (hdisj : SegDisjoint (standalone ++ ["node_modules"])
      (serverDir ++ [".next", "__external"]))
    (hdisj2 : SegDisjoint (standalone ++ [".next", "__external"])
      (serverDir ++ [".next", "__external"]))
    (hcleand : ∀ mod ∈ deps, CleanSegs (splitSlash mod))
    (hseeds : collectSeeds t serverDir = .ok seeds)
    (hspec : spec ∈ seeds)
    (hfile : getNode t (specPath standalone spec) = some (.file fc))
    (hdeps : collectExternalModules t standalone serverDir = .ok deps)
    (htree : s.tree = t)
    (hrun : M.run (mirrorExternals standalone serverDir
      ("next/package.json" :: deps)) s = (.ok a, s')) :
    deps ≠ [] ∧ spec ∈ deps ∧
    getNode s'.tree (serverDir ++ [".next", "__external"] ++ splitSlash spec) =
      some (.file fc) ∧
    (∀ q ∈ s'.log, q ∉ s.log →
      ¬ (standalone ++ [".next", "__external"]) <+: q) := by
  have hspecdeps : spec ∈ deps := by
    unfold collectExternalModules at hdeps
    obtain ⟨sds, h1, h2⟩ := except_bind_ok hdeps
    rw [hseeds] at h1
    injection h1 with h1
    subst h1
    obtain ⟨l₁, l₂, hseq⟩ := List.append_of_mem hspec
    rw [hseq, List.foldlM_append] at h2
    obtain ⟨ds, hds, h3⟩ := except_bind_ok h2
    rw [List.foldlM_cons] at h3
    obtain ⟨ds2, hds2, h4⟩ := except_bind_ok h3
    have hmem2 : spec ∈ ds2 :=
      traceDep_seed_mem t standalone
        (3 * (Node.size t + (l₁ ++ spec :: l₂).length) + 2) ds spec ds2 fc
        hfile hds2
    exact foldlM_except_inv
      (fun ds3 x r2 hds3 e2 =>
        traceDep_mono t standalone spec _ ds3 x r2 e2 hds3)
      l₂ ds2 deps hmem2 h4
  have hcs : CleanSegs (splitSlash spec) := hcleand spec hspecdeps
  have hconv : specPath standalone spec =
      standalone ++ ["node_modules"] ++ splitSlash spec := by
    unfold specPath
    exact normSegs_id _ (cleanSegs_append (cleanSegs_append hstc
      (by unfold CleanSegs; decide)) hcs)
  have hfile2 : getNode s.tree
      (standalone ++ ["node_modules"] ++ splitSlash spec) = some (.file fc) := by
    rw [htree, ← hconv]
    exact hfile
  have hcleanm : ∀ mod ∈ "next/package.json" :: deps,
      CleanSegs (splitSlash mod) := by
    intro mod hm
    rcases List.mem_cons.1 hm with rfl | hm2
    · unfold CleanSegs
      decide
    · exact hcleand mod hm2
  unfold mirrorExternals at hrun
  obtain ⟨c1, c2, c3, c4⟩ := mirror_loop_spec standalone serverDir hstc hsvc
    hdisj ("next/package.json" :: deps) [] s (.ok a) s' hcleanm hrun
  refine ⟨List.ne_nil_of_mem hspecdeps, hspecdeps, ?_, ?_⟩
  · exact c3 a rfl spec (List.mem_cons_of_mem _ hspecdeps) fc hfile2
  · intro q hq hnot hpre
    rcases c4 q hq with h | ⟨mod, hmod, h | h⟩
    · exact hnot h
    · subst h
      have hsv : (serverDir ++ [".next", "__external"]) <+:
          serverDir ++ [".next", "__external"] ++ splitSlash mod :=
        List.prefix_append _ _
      rcases List.prefix_or_prefix_of_prefix hpre hsv with h2 | h2
      · exact hdisj2.1 h2
      · exact hdisj2.2 h2
    · subst h
      rw [List.dropLast_append_of_ne_nil (serverDir ++ [".next", "__external"])
        (splitSlash_ne_nil mod)] at hpre
      have hsv : (serverDir ++ [".next", "__external"]) <+:
          serverDir ++ [".next", "__external"] ++ (splitSlash mod).dropLast :=
        List.prefix_append _ _
      rcases List.prefix_or_prefix_of_prefix hpre hsv with h2 | h2
      · exact hdisj2.1 h2
      · exact hdisj2.2 h2

/-- **C3** witness: on the concrete tree `c3Tree` with standalone root `[]`
and server root `app`, the chunk's `next/dist/x.js` is traced and mirrored
to `app/.next/__external/next/dist/x.js` with the source's exact content,
and no write of the phase lies under the standalone mirror root. -/
theorem c3_external_trace_and_mirror_witness :
    (["next/dist/x.js"] : List String) ≠ [] ∧
    "next/dist/x.js" ∈ (["next/dist/x.js"] : List String) ∧
    getNode (M.run (mirrorExternals [] ["app"]
        ("next/package.json" :: ["next/dist/x.js"])) ⟨c3Tree, []⟩).2.tree
      (["app"] ++ [".next", "__external"] ++ splitSlash "next/dist/x.js") =
      some (.file "1") ∧
    (∀ q ∈ (M.run (mirrorExternals [] ["app"]
        ("next/package.json" :: ["next/dist/x.js"])) ⟨c3Tree, []⟩).2.log,
      q ∉ (⟨c3Tree, []⟩ : St).log →
      ¬ (([] : List String) ++ [".next", "__external"]) <+: q) :=
  c3_external_trace_and_mirror c3Tree [] ["app"] ["next/dist/x.js"]
    ["next/dist/x.js"] "next/dist/x.js" "1" ⟨c3Tree, []⟩
    (M.run (mirrorExternals [] ["app"]
      ("next/package.json" :: ["next/dist/x.js"])) ⟨c3Tree, []⟩).2
    [⟨["app", ".next", "__external", "next", "dist", "x.js"],
      "__external/next/dist/x.js",
      "__runtime/.next/node_modules/next/dist/x.js"⟩]
    (by unfold CleanSegs; decide) (by unfold CleanSegs; decide)
    (by constructor <;> decide) (by constructor <;> decide)
    (by intro mod hm; rw [List.mem_singleton.1 hm]; unfold CleanSegs; decide)
    rfl (by decide) rfl rfl rfl rfl

/-- **C3** counterexample to the original universal statement: on `c3xTree`
the resolved server root `.next/__external/x` differs from the standalone
root `[]`, yet the full pipeline run copies the traced module to
`.next/__external/x/.next/__external/next/dist/x.js` — a freshly created
file under the standalone root's `.next/__external/`. -/
theorem c3_standalone_mirror_counterexample :
    (M.run (generateEntryPoint c3xOpts) ⟨c3xTree, []⟩).1 =
      .ok [".next", "__external", "x"] ∧
    [".next", "__external", "x"] ≠ ([] : List String) ∧
    getNode c3xTree
      [".next", "__external", "x", ".next", "__external",
        "next", "dist", "x.js"] = none ∧
    getNode (M.run (generateEntryPoint c3xOpts) ⟨c3xTree, []⟩).2.tree
      [".next", "__external", "x", ".next", "__external",
        "next", "dist", "x.js"] = some (.file "1") ∧
    (([] : List String) ++ [".next", "__external"]) <+:
      [".next", "__external", "x", ".next", "__external",
        "next", "dist", "x.js"] :=
  ⟨rfl, by decide, rfl, rfl, by decide⟩

theorem string_toList_append (a b : String) :
    (a ++ b).toList = a.toList ++ b.toList := by
  cases a; cases b; rfl

theorem string_append_cancel_left {p x y : String} (h : p ++ x = p ++ y) :
    x = y := by
  have h2 : (p ++ x).toList = (p ++ y).toList := by rw [h]
  rw [string_toList_append p x, string_toList_append p y] at h2
  exact congrArg String.mk (List.append_cancel_left h2)

theorem string_append_assoc (a b c : String) :
    (a ++ b) ++ c = a ++ (b ++ c) := by
  cases a; cases b; cases c
  exact congrArg String.mk (List.append_assoc _ _ _)

theorem strStartsWith_append_self (p x : String) :
    strStartsWith (p ++ x) p = true := by
  unfold strStartsWith
  rw [string_toList_append]
  exact isPrefixOf_append_self _ _

theorem string_append_ne_of_incomparable (p q x y : String)
    (h1 : p.toList.isPrefixOf q.toList = false)
    (h2 : q.toList.isPrefixOf p.toList = false) :
    p ++ x ≠ q ++ y := by
  intro he
  have h3 : p.toList ++ x.toList = q.toList ++ y.toList := by
    rw [← string_toList_append, ← string_toList_append, he]
  have hp1 : p.toList <+: q.toList ++ y.toList := ⟨x.toList, h3⟩
  have hp2 : q.toList <+: q.toList ++ y.toList := List.prefix_append _ _
  rcases List.prefix_or_prefix_of_prefix hp1 hp2 with h | h
  · rw [List.isPrefixOf_iff_prefix.2 h] at h1; cases h1
  · rw [List.isPrefixOf_iff_prefix.2 h] at h2; cases h2

/-- Every asset discovered by a walk carries the URL path built by its
`mkUrl` from its relative path. -/
theorem mWalkAssets_pointwise (dir : List String) (mkUrl : String → String)
    (s s' : St) (A : List Asset)
    (h : M.run (mWalkAssets dir mkUrl) s = (.ok A, s')) :
    ∀ a ∈ A, a.urlPath = mkUrl a.rel := by
  unfold mWalkAssets at h
  rw [M.run_bind, M.run_mLift] at h
  revert h
  cases hw : walkDir s.tree dir with
  | error e =>
    intro h
    dsimp only at h
    exact absurd (congrArg (fun q => q.1) h) (by simp)
  | ok files =>
    intro h
    dsimp only at h
    rw [M.run_pure] at h
    have h1 := congrArg (fun q => q.1) h
    dsimp only at h1
    injection h1 with h1
    intro a ha
    rw [← h1] at ha
    obtain ⟨x, hx, rfl⟩ := List.mem_map.1 ha
    rfl

/-- One mirror iteration either keeps the accumulator or appends exactly
the asset record of the processed module. -/
theorem mirrorStep_result (standalone serverDir : List String)
    (acc : List Asset) (m : String) (s : St) (acc1 : List Asset) (s1 : St)
    (h : M.run (mirrorStep standalone serverDir acc m) s = (.ok acc1, s1)) :
    acc1 = acc ∨ acc1 = acc ++
      [⟨normSegs (serverDir ++ [".next", "__external"] ++ splitSlash m),
        "__external/" ++ m, "__runtime/.next/node_modules/" ++ m⟩] := by
  unfold mirrorStep at h
  dsimp only at h
  rw [M.run_bind, M.run_mExists] at h
  dsimp only at h
  by_cases hex : pathExists s.tree (specPath standalone m) = true
  · rw [if_pos hex, M.run_bind, M.run_mMkdirp] at h
    revert h
    cases hmk : mkdirpAt s.tree
        ((normSegs (serverDir ++ [".next", "__external"] ++
          splitSlash m)).dropLast) with
    | error e =>
      intro h
      dsimp only at h
      exact absurd (congrArg (fun q => q.1) h) (by simp)
    | ok t1 =>
      intro h
      dsimp only at h
      rw [M.run_bind, M.run_mReadFile] at h
      dsimp only at h
      revert h
      cases hrd : readFileAt t1 (specPath standalone m) with
      | error e =>
        intro h
        dsimp only at h
        exact absurd (congrArg (fun q => q.1) h) (by simp)
      | ok content =>
        intro h
        dsimp only at h
        rw [M.run_bind, M.run_mWriteFile] at h
        dsimp only at h
        revert h
        cases hw : writeFileAt t1
            (normSegs (serverDir ++ [".next", "__external"] ++ splitSlash m))
            content with
        | error e =>
          intro h
          dsimp only at h
          exact absurd (congrArg (fun q => q.1) h) (by simp)
        | ok t2 =>
          intro h
          dsimp only at h
          rw [M.run_pure] at h
          have h1 := congrArg (fun q => q.1) h
          dsimp only at h1
          injection h1 with h1
          exact Or.inr h1.symm
  · rw [if_neg hex, M.run_pure] at h
    have h1 := congrArg (fun q => q.1) h
    dsimp only at h1
    injection h1 with h1
    exact Or.inl h1.symm

/-- The mirror loop's URL paths: what it appends to the accumulator is a
sublist of `__runtime/.next/node_modules/<mod>` over the processed module
list. -/
theorem mirror_urlPaths (standalone serverDir : List String) :
    ∀ (mods : List String) (acc : List Asset) (s : St)
      (res : List Asset) (s' : St),
      M.run (List.foldlM (mirrorStep standalone serverDir) acc mods) s =
        (.ok res, s') →
      ∃ l, res.map Asset.urlPath = acc.map Asset.urlPath ++ l ∧
        List.Sublist l (mods.map
          (fun mod => "__runtime/.next/node_modules/" ++ mod)) := by
  intro mods
  induction mods with
  | nil =>
    intro acc s res s' h
    rw [List.foldlM_nil, M.run_pure] at h
    have h1 := congrArg (fun q => q.1) h
    dsimp only at h1
    injection h1 with h1
    rw [← h1]
    exact ⟨[], by simp, List.nil_sublist _⟩
  | cons m rest ih =>
    intro acc s res s' h
    rw [List.foldlM_cons, M.run_bind] at h
    revert h
    cases hstep : M.run (mirrorStep standalone serverDir acc m) s with
    | mk r1 s1 =>
      cases r1 with
      | error e =>
        intro h
        dsimp only at h
        exact absurd (congrArg (fun q => q.1) h) (by simp)
      | ok acc1 =>
        intro h
        dsimp only at h
        obtain ⟨l, hl, hsub⟩ := ih acc1 s1 res s' h
        rcases mirrorStep_result standalone serverDir acc m s acc1 s1 hstep
          with rfl | rfl
        · exact ⟨l, hl, by
            simpa using List.Sublist.cons ("__runtime/.next/node_modules/" ++ m) hsub⟩
        · refine ⟨("__runtime/.next/node_modules/" ++ m) :: l, ?_, by
            simpa using List.Sublist.cons₂ ("__runtime/.next/node_modules/" ++ m) hsub⟩
          rw [hl]
          simp

/-- **C6** (amended): with the four `urlPath` families exactly as the
pipeline builds them — `/_next/static/<rel>` for shared static files,
`/<rel>` for public files, `__runtime/.next/<rel>` for runtime files and
`__runtime/.next/node_modules/<mod>` for mirrored external modules — the
embedded asset set's URL paths are pairwise distinct, provided the
input-side distinctness conditions hold: each walk's relative paths are
distinct, the mirror module list is distinct, no public file lies under
`_next/static/`, and no runtime-walk file lies under `node_modules/`.
Without those provisos distinct embedded assets can share a `urlPath`
(see the counterexample, where a registry map key is silently
duplicated). -/
theorem c6_urlpath_uniqueness
    (d1 d2 d3 standalone serverDir : List String)
    (s1 s2 s3 s4 s1' s2' s3' s4' : St)
    (stA puA ruA miA : List Asset) (mods : List String) (ap : Option String)
    (hst : M.run (mWalkAssets d1 (fun r => "/_next/static/" ++ r)) s1 =
      (.ok stA, s1'))
    (hpu : M.run (mWalkAssets d2 (fun r => "/" ++ r)) s2 = (.ok puA, s2'))
    (hru : M.run (mWalkAssets d3 (fun r => "__runtime/.next/" ++ r)) s3 =
      (.ok ruA, s3'))
    (hmi : M.run (mirrorExternals standalone serverDir mods) s4 =
      (.ok miA, s4'))
    (hnd1 : (stA.map Asset.rel).Nodup)
    (hnd2 : (puA.map Asset.rel).Nodup)
    (hnd3 : (ruA.map Asset.rel).Nodup)
    (hndm : mods.Nodup)
    (hpu2 : ∀ a ∈ puA, strStartsWith a.rel "_next/static/" = false)
    (hru2 : ∀ a ∈ ruA, strStartsWith a.rel "node_modules/" = false) :
    ((embedSelect ap stA puA (ruA ++ miA)).map Asset.urlPath).Nodup := by
  have hw1 := mWalkAssets_pointwise _ _ _ _ _ hst
  have hw2 := mWalkAssets_pointwise _ _ _ _ _ hpu
  have hw3 := mWalkAssets_pointwise _ _ _ _ _ hru
  unfold mirrorExternals at hmi
  obtain ⟨lm, hlm, hsubm⟩ :=
    mirror_urlPaths standalone serverDir mods [] s4 miA s4' hmi
  rw [List.map_nil, List.nil_append] at hlm
  have hinj : ∀ p : String, Function.Injective (fun r => p ++ r) :=
    fun p a b h => string_append_cancel_left h
  have hmap1 : stA.map Asset.urlPath =
      (stA.map Asset.rel).map (fun r => "/_next/static/" ++ r) := by
    rw [List.map_map]
    exact List.map_congr_left (fun a ha => hw1 a ha)
  have hmap2 : puA.map Asset.urlPath =
      (puA.map Asset.rel).map (fun r => "/" ++ r) := by
    rw [List.map_map]
    exact List.map_congr_left (fun a ha => hw2 a ha)
  have hmap3 : ruA.map Asset.urlPath =
      (ruA.map Asset.rel).map (fun r => "__runtime/.next/" ++ r) := by
    rw [List.map_map]
    exact List.map_congr_left (fun a ha => hw3 a ha)
  have n1 : (stA.map Asset.urlPath).Nodup := by
    rw [hmap1]; exact List.Nodup.map (hinj _) hnd1
  have n2 : (puA.map Asset.urlPath).Nodup := by
    rw [hmap2]; exact List.Nodup.map (hinj _) hnd2
  have n3 : (ruA.map Asset.urlPath).Nodup := by
    rw [hmap3]; exact List.Nodup.map (hinj _) hnd3
  have n4 : (miA.map Asset.urlPath).Nodup := by
    rw [hlm]
    exact List.Nodup.sublist hsubm (List.Nodup.map (hinj _) hndm)
  have hch1 : ∀ u ∈ stA.map Asset.urlPath,
      ∃ r, u = "/_next/static/" ++ r := by
    intro u hu
    obtain ⟨a, ha, rfl⟩ := List.mem_map.1 hu
    exact ⟨a.rel, hw1 a ha⟩
  have hch2 : ∀ u ∈ puA.map Asset.urlPath,
      ∃ r, u = "/" ++ r ∧ strStartsWith r "_next/static/" = false := by
    intro u hu
    obtain ⟨a, ha, rfl⟩ := List.mem_map.1 hu
    exact ⟨a.rel, hw2 a ha, hpu2 a ha⟩
  have hch3 : ∀ u ∈ ruA.map Asset.urlPath,
      ∃ r, u = "__runtime/.next/" ++ r ∧
        strStartsWith r "node_modules/" = false := by
    intro u hu
    obtain ⟨a, ha, rfl⟩ := List.mem_map.1 hu
    exact ⟨a.rel, hw3 a ha, hru2 a ha⟩
  have hch4 : ∀ u ∈ miA.map Asset.urlPath,
      ∃ m, u = "__runtime/.next/node_modules/" ++ m := by
    intro u hu
    rw [hlm] at hu
    obtain ⟨m, hm, rfl⟩ := List.mem_map.1 (hsubm.mem hu)
    exact ⟨m, rfl⟩
  have dStPu : ∀ u ∈ stA.map Asset.urlPath, u ∉ puA.map Asset.urlPath := by
    intro u hu hv
    obtain ⟨r1, rfl⟩ := hch1 u hu
    obtain ⟨r2, he, hss⟩ := hch2 _ hv
    have he2 : "/" ++ ("_next/static/" ++ r1) = "/" ++ r2 := by
      rw [← string_append_assoc]
      exact he
    have hr2 : r2 = "_next/static/" ++ r1 :=
      (string_append_cancel_left he2).symm
    rw [hr2, strStartsWith_append_self] at hss
    cases hss
  have dStRu : ∀ u ∈ stA.map Asset.urlPath, u ∉ ruA.map Asset.urlPath := by
    intro u hu hv
    obtain ⟨r1, rfl⟩ := hch1 u hu
    obtain ⟨r2, he, _⟩ := hch3 _ hv
    exact string_append_ne_of_incomparable "/_next/static/" "__runtime/.next/"
      r1 r2 (by decide) (by decide) he
  have dStMi : ∀ u ∈ stA.map Asset.urlPath, u ∉ miA.map Asset.urlPath := by
    intro u hu hv
    obtain ⟨r1, rfl⟩ := hch1 u hu
    obtain ⟨m2, he⟩ := hch4 _ hv
    exact string_append_ne_of_incomparable "/_next/static/"
      "__runtime/.next/node_modules/" r1 m2 (by decide) (by decide) he
  have dPuRu : ∀ u ∈ puA.map Asset.urlPath, u ∉ ruA.map Asset.urlPath := by
    intro u hu hv
    obtain ⟨r1, he1, _⟩ := hch2 u hu
    obtain ⟨r2, he2, _⟩ := hch3 _ hv
    rw [he1] at he2
    exact string_append_ne_of_incomparable "/" "__runtime/.next/"
      r1 r2 (by decide) (by decide) he2
  have dPuMi : ∀ u ∈ puA.map Asset.urlPath, u ∉ miA.map Asset.urlPath := by
    intro u hu hv
    obtain ⟨r1, he1, _⟩ := hch2 u hu
    obtain ⟨m2, he2⟩ := hch4 _ hv
    rw [he1] at he2
    exact string_append_ne_of_incomparable "/"
      "__runtime/.next/node_modules/" r1 m2 (by decide) (by decide) he2
  have dRuMi : ∀ u ∈ ruA.map Asset.urlPath, u ∉ miA.map Asset.urlPath := by
    intro u hu hv
    obtain ⟨r, he, hss⟩ := hch3 u hu
    obtain ⟨m2, he2⟩ := hch4 _ hv
    rw [he] at he2
    have he3 : "__runtime/.next/" ++ r =
        "__runtime/.next/" ++ ("node_modules/" ++ m2) := by
      rw [← string_append_assoc]
      exact he2
    have hr : r = "node_modules/" ++ m2 := string_append_cancel_left he3
    rw [hr, strStartsWith_append_self] at hss
    cases hss
  have nRuMi : (((ruA ++ miA) : List Asset).map Asset.urlPath).Nodup := by
    rw [List.map_append]
    exact List.nodup_append.2 ⟨n3, n4, fun u hu hv => dRuMi u hu hv⟩
  have dPu_RuMi : ∀ u ∈ puA.map Asset.urlPath,
      u ∉ ((ruA ++ miA) : List Asset).map Asset.urlPath := by
    intro u hu hv
    rw [List.map_append] at hv
    rcases List.mem_append.1 hv with h | h
    · exact dPuRu u hu h
    · exact dPuMi u hu h
  unfold embedSelect
  by_cases hap : assetPrefixTruthy ap = true
  · rw [if_pos hap, List.map_append]
    exact List.nodup_append.2 ⟨n2, nRuMi, fun u hu hv => dPu_RuMi u hu hv⟩
  · rw [if_neg hap]
    simp only [List.map_append]
    rw [← List.map_append Asset.urlPath stA puA,
      ← List.map_append Asset.urlPath (ruA) (miA)]
    refine List.nodup_append.2 ⟨?_, nRuMi, ?_⟩
    · rw [List.map_append]
      exact List.nodup_append.2 ⟨n1, n2, fun u hu hv => dStPu u hu hv⟩
    · intro u hu hv
      rw [List.map_append] at hu hv
      rcases List.mem_append.1 hu with h | h <;>
        rcases List.mem_append.1 hv with h2 | h2
      · exact dStRu u h h2
      · exact dStMi u h h2
      · exact dPuRu u h h2
      · exact dPuMi u h h2

/-- **C6** witness: on `c6Tree`, with one asset in each family (a static
`a.js`, a public `logo.png`, a runtime `r.js`, a mirrored
`next/dist/y.js`), the embedded registry's URL paths are pairwise
distinct. -/
theorem c6_urlpath_uniqueness_witness :
    ((embedSelect none
        [⟨["dist", "static", "a.js"], "a.js", "/_next/static/a.js"⟩]
        [⟨["proj", "public", "logo.png"], "logo.png", "/logo.png"⟩]
        ([⟨["s", ".next", "r.js"], "r.js", "__runtime/.next/r.js"⟩] ++
         [⟨["s", ".next", "__external", "next", "dist", "y.js"],
            "__external/next/dist/y.js",
            "__runtime/.next/node_modules/next/dist/y.js"⟩])).map
      Asset.urlPath).Nodup :=
  c6_urlpath_uniqueness ["dist", "static"] ["proj", "public"] ["s", ".next"]
    [] ["s"]
    ⟨c6Tree, []⟩ ⟨c6Tree, []⟩ ⟨c6Tree, []⟩ ⟨c6Tree, []⟩
    ⟨c6Tree, []⟩ ⟨c6Tree, []⟩ ⟨c6Tree, []⟩
    (M.run (mirrorExternals [] ["s"] ["next/dist/y.js"]) ⟨c6Tree, []⟩).2
    [⟨["dist", "static", "a.js"], "a.js", "/_next/static/a.js"⟩]
    [⟨["proj", "public", "logo.png"], "logo.png", "/logo.png"⟩]
    [⟨["s", ".next", "r.js"], "r.js", "__runtime/.next/r.js"⟩]
    [⟨["s", ".next", "__external", "next", "dist", "y.js"],
       "__external/next/dist/y.js",
       "__runtime/.next/node_modules/next/dist/y.js"⟩]
    ["next/dist/y.js"] none
    rfl rfl rfl rfl
    (by decide) (by decide) (by decide) (by decide) (by decide) (by decide)

set_option maxRecDepth 8000 in
/-- **C6** counterexample to the original universal statement: on `c6xTree`
the public file `_next/static/a.js` and the shared static file `a.js` are
distinct embedded assets with the same `urlPath` `/_next/static/a.js`, and
the generated registry contains the same map key twice in a row — the
silent overwrite the claim rules out. -/
theorem c6_urlpath_collision_counterexample :
    (M.run (generateEntryPoint c6xOpts) ⟨c6xTree, []⟩).1 = .ok ["s"] ∧
    getNode c6xTree ["dist", "static", "a.js"] = some (.file "A") ∧
    getNode c6xTree ["proj", "public", "_next", "static", "a.js"] =
      some (.file "B") ∧
    (readFileAt (M.run (generateEntryPoint c6xOpts) ⟨c6xTree, []⟩).2.tree
        ["s", "assets.generated.js"]).map
      (fun c => strContains c
        (mapEntryLine ⟨[], "", "/_next/static/a.js"⟩ ++ "\n" ++
         mapEntryLine ⟨[], "", "/_next/static/a.js"⟩)) = .ok true :=
  ⟨rfl, rfl, rfl, rfl⟩

theorem Entries.set_remove_of_find_none :
    (es : Entries) → (s : String) → (v : Node) → es.find? s = none →
      (es.set s v).remove s = es
  | .nil, s, v => by
    intro _
    simp [Entries.set, Entries.remove]
  | .cons n node rest, s, v => by
    intro h
    unfold Entries.find? at h
    by_cases hn : n = s
    · rw [if_pos hn] at h
      cases h
    · rw [if_neg hn] at h
      unfold Entries.set
      rw [if_neg hn]
      unfold Entries.remove
      rw [if_neg hn, Entries.set_remove_of_find_none rest s v h]

theorem Entries.set_find_self :
    (es : Entries) → (s : String) → (n : Node) → es.find? s = some n →
      es.set s n = es
  | .nil, _, _ => by
    intro h
    cases h
  | .cons m node rest, s, n => by
    intro h
    unfold Entries.find? at h
    unfold Entries.set
    by_cases hm : m = s
    · rw [if_pos hm] at h
      injection h with h
      rw [if_pos hm, h]
    · rw [if_neg hm] at h
      rw [if_neg hm, Entries.set_find_self rest s n h]

theorem Entries.set_set :
    (es : Entries) → (s : String) → (v w : Node) →
      (es.set s v).set s w = es.set s w
  | .nil, s, v, w => by simp [Entries.set]
  | .cons m node rest, s, v, w => by
    unfold Entries.set
    by_cases hm : m = s
    · simp [hm, Entries.set]
    · simp [hm, Entries.set, Entries.set_set rest s v w]

/-- Writing a file at a previously nonexistent path and then deleting it
restores the original tree byte-for-byte. -/
theorem removeFile_writeFileAt :
    ∀ (p : List String) (t t' : Node) (c : String),
      getNode t p = none → writeFileAt t p c = .ok t' →
      removeFile t' p = t := by
  intro p
  induction p with
  | nil =>
    intro t t' c hg _
    simp [getNode] at hg
  | cons s rest ih =>
    intro t t' c hg hw
    cases t with
    | file cf => exact absurd hw (by simp [writeFileAt])
    | dir es =>
      cases rest with
      | nil =>
        unfold writeFileAt at hw
        unfold getNode at hg
        revert hg
        revert hw
        cases hf : es.find? s with
        | some n =>
          intro hw hg
          dsimp only at hg
          simp [getNode] at hg
        | none =>
          intro hw hg
          dsimp only at hw
          injection hw with hw
          rw [← hw]
          unfold removeFile
          rw [Entries.set_remove_of_find_none es s _ hf]
      | cons s2 rest2 =>
        unfold writeFileAt at hw
        unfold getNode at hg
        revert hg
        revert hw
        cases hf : es.find? s with
        | none =>
          intro hw hg
          exact absurd hw (by simp)
        | some n =>
          intro hw hg
          dsimp only at hg hw
          obtain ⟨n2, hn2, hw2⟩ := except_bind_ok hw
          injection hw2 with hw2
          rw [← hw2]
          unfold removeFile
          rw [Entries.find?_set_self es s n2]
          dsimp only
          rw [ih n n2 c hg hn2, Entries.set_set es s n2 n,
            Entries.set_find_self es s n hf]

theorem not_prefix_of_last_ne (sd : List String) (a b : String)
    (hne : a ≠ b) : ¬ (sd ++ [a]) <+: (sd ++ [b]) := by
  intro hp
  have heq := hp.eq_of_length_le (by simp)
  have h2 := List.append_cancel_left heq
  simp at h2
  exact hne h2

/-- Invert a successful monadic bind. -/
theorem m_bind_ok {α β : Type} (x : M α) (f : α → M β) (s : St) (r : β)
    (s' : St) (h : M.run (x >>= f) s = (.ok r, s')) :
    ∃ a s1, M.run x s = (.ok a, s1) ∧ M.run (f a) s1 = (.ok r, s') := by
  rw [M.run_bind] at h
  revert h
  cases hx : M.run x s with
  | mk r1 s1 =>
    cases r1 with
    | error e =>
      intro h
      dsimp only at h
      have h2 : (Except.error e : Except String β) = .ok r :=
        congrArg Prod.fst h
      cases h2
    | ok a =>
      intro h
      dsimp only at h
      exact ⟨a, s1, rfl, h⟩

/-- Invert a successful `mWriteFile`. -/
theorem mWriteFile_ok (p : List String) (c : String) (s : St) (u : Unit)
    (s' : St) (h : M.run (mWriteFile p c) s = (.ok u, s')) :
    ∃ t', writeFileAt s.tree p c = .ok t' ∧
      s' = ⟨t', s.log ++ [p]⟩ := by
  rw [M.run_mWriteFile] at h
  revert h
  cases hw : writeFileAt s.tree p c with
  | ok t =>
    intro h
    dsimp only at h
    exact ⟨t, rfl, (congrArg Prod.snd h).symm⟩
  | error e =>
    intro h
    dsimp only at h
    have h2 : (Except.error e : Except String Unit) = .ok u :=
      congrArg Prod.fst h
    cases h2

/-- An asset walk never changes the state. -/
theorem mWalkAssets_state (dir : List String) (mkUrl : String → String)
    (s : St) (r : Except String (List Asset)) (s' : St)
    (h : M.run (mWalkAssets dir mkUrl) s = (r, s')) : s' = s := by
  unfold mWalkAssets at h
  rw [M.run_bind, M.run_mLift] at h
  revert h
  cases walkDir s.tree dir with
  | error e =>
    intro h
    exact (congrArg Prod.snd h).symm
  | ok files =>
    intro h
    dsimp only at h
    rw [M.run_pure] at h
    exact (congrArg Prod.snd h).symm

theorem logMono_pure {α : Type} (a : α) : LogMono (Pure.pure a : M α) := by
  intro s r s' h
  rw [M.run_pure] at h
  have h2 : s = s' := congrArg Prod.snd h
  subst h2
  exact ⟨[], by simp, fun _ => rfl⟩

theorem logMono_mThrow {α : Type} (e : String) :
    LogMono (mThrow e : M α) := by
  intro s r s' h
  have h2 : s = s' := congrArg Prod.snd h
  subst h2
  exact ⟨[], by simp, fun _ => rfl⟩

theorem logMono_mLift {α : Type} (f : St → Except String α) :
    LogMono (mLift f) := by
  intro s r s' h
  rw [M.run_mLift] at h
  have h2 : s = s' := congrArg Prod.snd h
  subst h2
  exact ⟨[], by simp, fun _ => rfl⟩

theorem logMono_mExists (p : List String) : LogMono (mExists p) :=
  logMono_mLift _

theorem logMono_mReadFile (p : List String) : LogMono (mReadFile p) :=
  logMono_mLift _

theorem logMono_bind {α β : Type} {x : M α} {f : α → M β}
    (hx : LogMono x) (hf : ∀ a, LogMono (f a)) : LogMono (x >>= f) := by
  intro s r s' h
  rw [M.run_bind] at h
  revert h
  cases hx0 : M.run x s with
  | mk r1 s1 =>
    cases r1 with
    | error e =>
      intro h
      dsimp only at h
      obtain ⟨ws, hws, ht⟩ := hx s _ s1 hx0
      have h2 : s1 = s' := congrArg Prod.snd h
      subst h2
      exact ⟨ws, hws, ht⟩
    | ok a =>
      intro h
      dsimp only at h
      obtain ⟨ws1, hws1, ht1⟩ := hx s _ s1 hx0
      obtain ⟨ws2, hws2, ht2⟩ := hf a s1 r s' h
      refine ⟨ws1 ++ ws2, ?_, ?_⟩
      · rw [hws2, hws1, List.append_assoc]
      · intro he
        rcases List.append_eq_nil.1 he with ⟨he1, he2⟩
        rw [ht2 he2, ht1 he1]

theorem logMono_mWriteFile (p : List String) (c : String) :
    LogMono (mWriteFile p c) := by
  intro s r s' h
  rw [M.run_mWriteFile] at h
  revert h
  cases hw : writeFileAt s.tree p c with
  | ok t =>
    intro h
    have h2 : (⟨t, s.log ++ [p]⟩ : St) = s' := congrArg Prod.snd h
    subst h2
    exact ⟨[p], rfl, fun he => by cases he⟩
  | error e =>
    intro h
    have h2 : s = s' := congrArg Prod.snd h
    subst h2
    exact ⟨[], by simp, fun _ => rfl⟩

theorem logMono_mMkdirp (p : List String) : LogMono (mMkdirp p) := by
  intro s r s' h
  rw [M.run_mMkdirp] at h
  revert h
  cases hw : mkdirpAt s.tree p with
  | ok t =>
    intro h
    have h2 : (⟨t, s.log ++ [p]⟩ : St) = s' := congrArg Prod.snd h
    subst h2
    exact ⟨[p], rfl, fun he => by cases he⟩
  | error e =>
    intro h
    have h2 : s = s' := congrArg Prod.snd h
    subst h2
    exact ⟨[], by simp, fun _ => rfl⟩

theorem logMono_ite {α : Type} (c : Prop) [Decidable c] {x y : M α}
    (hx : LogMono x) (hy : LogMono y) : LogMono (if c then x else y) := by
  by_cases h : c
  · rw [if_pos h]; exact hx
  · rw [if_neg h]; exact hy

theorem logMono_list_forM {α : Type} (f : α → M Unit)
    (hf : ∀ a, LogMono (f a)) : ∀ l : List α, LogMono (l.forM f)
  | [] => by rw [list_forM_nil]; exact logMono_pure _
  | a :: l => by
    rw [list_forM_cons]
    exact logMono_bind (hf a) (fun _ => logMono_list_forM f hf l)

theorem logMono_list_foldlM {α β : Type} (f : β → α → M β)
    (hf : ∀ b a, LogMono (f b a)) :
    ∀ (l : List α) (b : β), LogMono (List.foldlM f b l)
  | [], b => by rw [List.foldlM_nil]; exact logMono_pure _
  | a :: l, b => by
    rw [List.foldlM_cons]
    exact logMono_bind (hf b a)
      (fun b2 => logMono_list_foldlM f hf l b2)

theorem logMono_stubWrite (p : List String) (c : String) :
    LogMono (stubWrite p c) := by
  unfold stubWrite
  dsimp only
  refine logMono_bind (logMono_mExists _) (fun ex => ?_)
  refine logMono_ite _ (logMono_pure _) ?_
  refine logMono_bind (logMono_mExists _) (fun dx => ?_)
  refine logMono_ite _ ?_ ?_
  · exact logMono_bind (logMono_pure _) (fun _ => logMono_mWriteFile _ _)
  · exact logMono_bind (logMono_mMkdirp _) (fun _ => logMono_mWriteFile _ _)

theorem logMono_stubEntryRun (standalone : List String) (st : StubEntry) :
    LogMono (stubEntryRun standalone st) := by
  unfold stubEntryRun
  dsimp only
  refine logMono_bind (logMono_mLift _) (fun pkgDirs => ?_)
  exact logMono_list_forM _ (fun d => logMono_stubWrite _ _) _

theorem logMono_generateStubs (standalone : List String) :
    LogMono (generateStubs standalone) := by
  unfold generateStubs
  exact logMono_list_forM _ (fun st => logMono_stubEntryRun standalone st) _

theorem logMono_patchDirRun (d : List String) : LogMono (patchDirRun d) := by
  unfold patchDirRun
  dsimp only
  refine logMono_bind (logMono_mExists _) (fun ex => ?_)
  refine logMono_ite _ ?_ (logMono_pure _)
  refine logMono_bind (logMono_mReadFile _) (fun content => ?_)
  exact logMono_ite _ (logMono_mWriteFile _ _) (logMono_pure _)

theorem logMono_patchRequireHook (standalone : List String) :
    LogMono (patchRequireHook standalone) := by
  unfold patchRequireHook
  dsimp only
  refine logMono_bind (logMono_mLift _) (fun nextDirs => ?_)
  exact logMono_list_forM _ (fun d => logMono_patchDirRun d) _

theorem logMono_mirrorStep (standalone serverDir : List String)
    (acc : List Asset) (m : String) :
    LogMono (mirrorStep standalone serverDir acc m) := by
  unfold mirrorStep
  dsimp only
  refine logMono_bind (logMono_mExists _) (fun ex => ?_)
  refine logMono_ite _ ?_ (logMono_pure _)
  refine logMono_bind (logMono_mMkdirp _) (fun _ => ?_)
  refine logMono_bind (logMono_mReadFile _) (fun content => ?_)
  exact logMono_bind (logMono_mWriteFile _ _) (fun _ => logMono_pure _)

theorem logMono_mirrorExternals (standalone serverDir : List String)
    (mods : List String) :
    LogMono (mirrorExternals standalone serverDir mods) := by
  unfold mirrorExternals
  exact logMono_list_foldlM _
    (fun acc m => logMono_mirrorStep standalone serverDir acc m) _ _

/-- **C4** (amended): a successful run whose write log holds exactly two
entries — the two output files, so the mutation phases (stub synthesis,
require-hook patch, external-module mirror) wrote nothing — created
exactly those two files: deleting them restores the input tree
byte-for-byte, and the second run is literally the first again, producing
the identical result state and hence byte-identical contents for both
output files.  (The original unconditional claim fails when the mirror
phase copies files: the copies land under `<serverDir>/.next` and feed the
second run's runtime walk, changing both outputs — see the
counterexample.) -/
theorem c4_idempotent_no_mutation
    (o : GenerateOptions) (t0 : Node) (sd : List String) (s1 : St)
    (hrun : M.run (generateEntryPoint o) ⟨t0, []⟩ = (.ok sd, s1))
    (hlog : s1.log.length = 2)
    (hnone1 : getNode t0 (sd ++ ["assets.generated.js"]) = none)
    (hnone2 : getNode t0 (sd ++ ["server-entry.js"]) = none) :
    removeFile (removeFile s1.tree (sd ++ ["server-entry.js"]))
      (sd ++ ["assets.generated.js"]) = t0 ∧
    M.run (generateEntryPoint o)
      ⟨removeFile (removeFile s1.tree (sd ++ ["server-entry.js"]))
        (sd ++ ["assets.generated.js"]), []⟩ = (.ok sd, s1) := by
  have hrun0 := hrun
  unfold generateEntryPoint at hrun
  obtain ⟨sd1, sA, h1, hrun⟩ := m_bind_ok _ _ _ _ _ hrun
  obtain ⟨u2, sB, h2, hrun⟩ := m_bind_ok _ _ _ _ _ hrun
  obtain ⟨u3, sC, h3, hrun⟩ := m_bind_ok _ _ _ _ _ hrun
  obtain ⟨stF, sD, h4, hrun⟩ := m_bind_ok _ _ _ _ _ hrun
  obtain ⟨puF, sE, h5, hrun⟩ := m_bind_ok _ _ _ _ _ hrun
  obtain ⟨ruF, sF, h6, hrun⟩ := m_bind_ok _ _ _ _ _ hrun
  obtain ⟨ext, sG, h7, hrun⟩ := m_bind_ok _ _ _ _ _ hrun
  obtain ⟨pushed, sH, h8, hrun⟩ := m_bind_ok _ _ _ _ _ hrun
  dsimp only at hrun
  obtain ⟨ctx, sI, h9, hrun⟩ := m_bind_ok _ _ _ _ _ hrun
  obtain ⟨u10, sJ, h10, hrun⟩ := m_bind_ok _ _ _ _ _ hrun
  unfold emitServerEntry at hrun
  obtain ⟨src, sK, h11, hrun⟩ := m_bind_ok _ _ _ _ _ hrun
  revert hrun
  cases hcfg : extractNextConfig src with
  | none =>
    intro hrun
    have h2 : (Except.error configErrMsg : Except String (List String)) =
        .ok sd := congrArg Prod.fst hrun
    cases h2
  | some cfg =>
    intro hrun
    dsimp only at hrun
    obtain ⟨u12, sL, h12, hrun⟩ := m_bind_ok _ _ _ _ _ hrun
    rw [M.run_pure] at hrun
    have hsd : sd1 = sd := by
      have h2 : (Except.ok sd1 : Except String (List String)) = .ok sd :=
        congrArg Prod.fst hrun
      injection h2
    subst hsd
    have hs1 : sL = s1 := congrArg Prod.snd hrun
    have hA : sA = ⟨t0, []⟩ := by
      rw [M.run_mLift] at h1
      exact (congrArg Prod.snd h1).symm
    obtain ⟨ws2, hB, hBt⟩ := logMono_generateStubs o.standaloneDir sA _ sB h2
    obtain ⟨ws3, hC, hCt⟩ :=
      logMono_patchRequireHook o.standaloneDir sB _ sC h3
    have hD : sD = sC := mWalkAssets_state _ _ _ _ _ h4
    have hE : sE = sD := mWalkAssets_state _ _ _ _ _ h5
    have hF : sF = sE := mWalkAssets_state _ _ _ _ _ h6
    have hG : sG = sF := by
      rw [M.run_mLift] at h7
      exact (congrArg Prod.snd h7).symm
    obtain ⟨ws8, hH, hHt⟩ := logMono_mirrorExternals _ _ _ sG _ sH h8
    have hI : sI = sH := by
      rw [M.run_mReadFile] at h9
      exact (congrArg Prod.snd h9).symm
    obtain ⟨tA, hw1, hJ⟩ := mWriteFile_ok _ _ _ _ _ h10
    have hKJ : sK = sJ := by
      rw [M.run_mReadFile] at h11
      exact (congrArg Prod.snd h11).symm
    obtain ⟨tB, hw2, hL⟩ := mWriteFile_ok _ _ _ _ _ h12
    have hIlog : sI.log = (([] ++ ws2) ++ ws3) ++ ws8 := by
      rw [hI, hH, hG, hF, hE, hD, hC, hB, hA]
    have hJlog : sJ.log = sI.log ++ [sd1 ++ ["assets.generated.js"]] := by
      rw [hJ]
    have hs1log : s1.log =
        (sI.log ++ [sd1 ++ ["assets.generated.js"]]) ++
          [sd1 ++ ["server-entry.js"]] := by
      rw [← hs1, hL, hKJ, hJlog]
    have hInil : sI.log = [] := by
      rw [hs1log] at hlog
      simp [List.length_append] at hlog
      exact hlog
    have hws : ws2 = [] ∧ ws3 = [] ∧ ws8 = [] := by
      have h2 := hIlog.symm
      rw [hInil] at h2
      rcases List.append_eq_nil.1 h2 with ⟨h3, h8⟩
      rcases List.append_eq_nil.1 h3 with ⟨h4, h5⟩
      rcases List.append_eq_nil.1 h4 with ⟨_, h6⟩
      exact ⟨h6, h5, h8⟩
    have hItree : sI.tree = t0 := by
      rw [hI, hHt hws.2.2, hG, hF, hE, hD, hCt hws.2.1, hBt hws.1, hA]
    rw [hItree] at hw1
    have hw2A : writeFileAt tA (sd1 ++ ["server-entry.js"])
        (serverEntryContent cfg (jsonPairs ((embedSelect (parseAssetPrefix ctx)
          stF puF (ruF ++ pushed)).map
          (fun a => (a.urlPath, diskPathOf a))))) = .ok tB := by
      rw [hKJ, hJ] at hw2
      exact hw2
    have hga : getNode tA (sd1 ++ ["server-entry.js"]) = none := by
      rw [writeFileAt_getNode_disjoint _ _ _ _ hw1 _
        (not_prefix_of_last_ne sd1 _ _ (by decide))
        (not_prefix_of_last_ne sd1 _ _ (by decide))]
      exact hnone2
    have hs1tree : s1.tree = tB := by
      rw [← hs1, hL]
    have hrm2 : removeFile s1.tree (sd1 ++ ["server-entry.js"]) = tA := by
      rw [hs1tree]
      exact removeFile_writeFileAt _ _ _ _ hga hw2A
    have htree0 : removeFile (removeFile s1.tree
        (sd1 ++ ["server-entry.js"])) (sd1 ++ ["assets.generated.js"]) =
        t0 := by
      rw [hrm2]
      exact removeFile_writeFileAt _ _ _ _ hnone1 hw1
    refine ⟨htree0, ?_⟩
    rw [htree0]
    exact hrun0

/-- **C4** witness: on `c4Tree` (all stub locations already populated, no
patchable hook, no chunks, context present) the run succeeds writing only
the two output files; deleting them restores the tree and the second run
reproduces the identical final state. -/
theorem c4_idempotent_no_mutation_witness :
    removeFile (removeFile
        (M.run (generateEntryPoint c4Opts) ⟨c4Tree, []⟩).2.tree
        (["w"] ++ ["server-entry.js"])) (["w"] ++ ["assets.generated.js"]) =
      c4Tree ∧
    M.run (generateEntryPoint c4Opts)
      ⟨removeFile (removeFile
          (M.run (generateEntryPoint c4Opts) ⟨c4Tree, []⟩).2.tree
          (["w"] ++ ["server-entry.js"])) (["w"] ++ ["assets.generated.js"]),
        []⟩ =
      (.ok ["w"], (M.run (generateEntryPoint c4Opts) ⟨c4Tree, []⟩).2) :=
  c4_idempotent_no_mutation c4Opts c4Tree ["w"]
    (M.run (generateEntryPoint c4Opts) ⟨c4Tree, []⟩).2
    rfl rfl rfl rfl

set_option maxRecDepth 8000 in
/-- **C4** counterexample to the original claim: on `c4xTree` the first
run mirrors `next/dist/z.js` into `<serverDir>/.next/__external`; after
deleting only the two output files, the second run's runtime walk picks
the mirror copy up as a runtime asset, so the second
`assets.generated.js` mentions `__runtime/.next/__external/next/dist/z.js`
while the first does not — the outputs are not byte-identical. -/
theorem c4_not_idempotent_counterexample :
    (M.run (generateEntryPoint c4xOpts) ⟨c4xTree, []⟩).1 = .ok ["x"] ∧
    (M.run (generateEntryPoint c4xOpts)
      ⟨removeFile (removeFile
          (M.run (generateEntryPoint c4xOpts) ⟨c4xTree, []⟩).2.tree
          ["x", "server-entry.js"]) ["x", "assets.generated.js"], []⟩).1 =
      .ok ["x"] ∧
    (readFileAt (M.run (generateEntryPoint c4xOpts) ⟨c4xTree, []⟩).2.tree
        ["x", "assets.generated.js"]).map
      (fun c => strContains c "__runtime/.next/__external/next/dist/z.js") =
      .ok false ∧
    (readFileAt (M.run (generateEntryPoint c4xOpts)
        ⟨removeFile (removeFile
            (M.run (generateEntryPoint c4xOpts) ⟨c4xTree, []⟩).2.tree
            ["x", "server-entry.js"]) ["x", "assets.generated.js"],
          []⟩).2.tree
        ["x", "assets.generated.js"]).map
      (fun c => strContains c "__runtime/.next/__external/next/dist/z.js") =
      .ok true :=
  ⟨rfl, rfl, rfl, rfl⟩

/-- **C9** Generation fails with the config-extraction error iff the server
root's `server.js` does not contain a `const nextConfig = {...}` literal
matching the fixed textual marker; when the literal is present, the emitted
bootstrap program contains the extracted configuration text verbatim and
references the asset registry's exported map.  (`emitServerEntry` is the
final stage of `generateEntryPoint`, entered right after the registry
write.) -/
theorem c9_config_extraction (serverDir : List String) (assets : List Asset)
    (s : St) (src : String)
    (hsrc : readFileAt s.tree (serverDir ++ ["server.js"]) = .ok src) :
    ((∃ s', M.run (emitServerEntry serverDir assets) s =
        (.error configErrMsg, s')) ↔ extractNextConfig src = none) ∧
    (∀ cfg r s', extractNextConfig src = some cfg →
      M.run (emitServerEntry serverDir assets) s = (.ok r, s') →
      readFileAt s'.tree (serverDir ++ ["server-entry.js"]) =
        .ok (serverEntryContent cfg
          (jsonPairs (assets.map (fun a => (a.urlPath, diskPathOf a))))) ∧
      strContains (serverEntryContent cfg
        (jsonPairs (assets.map (fun a => (a.urlPath, diskPathOf a)))))
        cfg = true ∧
      strContains (serverEntryContent cfg
        (jsonPairs (assets.map (fun a => (a.urlPath, diskPathOf a)))))
        "import \x7b assetMap \x7d from \"./assets.generated.js\";\n" = true) := by
  have hread : M.run (mReadFile (serverDir ++ ["server.js"])) s = (.ok src, s) := by
    rw [mReadFile, M.run_mLift, hsrc]
  have hrun : M.run (emitServerEntry serverDir assets) s =
      match extractNextConfig src with
      | none => (.error configErrMsg, s)
      | some cfg =>
        M.run (mWriteFile (serverDir ++ ["server-entry.js"])
          (serverEntryContent cfg
            (jsonPairs (assets.map (fun a => (a.urlPath, diskPathOf a))))) >>=
          fun _ => Pure.pure serverDir) s := by
    unfold emitServerEntry
    rw [M.run_bind, hread]
    dsimp only
    cases extractNextConfig src <;> rfl
  constructor
  · constructor
    · rintro ⟨s', he⟩
      cases hcfg : extractNextConfig src with
      | none => rfl
      | some cfg =>
        rw [hrun, hcfg] at he
        dsimp only at he
        rw [M.run_bind, M.run_mWriteFile] at he
        revert he
        cases hw : writeFileAt s.tree (serverDir ++ ["server-entry.js"])
            (serverEntryContent cfg
              (jsonPairs (assets.map (fun a => (a.urlPath, diskPathOf a))))) with
        | ok t => intro he; exact absurd he (by simp [M.run_pure])
        | error e =>
          intro he
          have he2 : e = configErrMsg := by
            simpa using congrArg (fun q => q.1) he
          rcases writeFileAt_error_cases _ _ _ _ hw with h | h | h | h <;>
            (rw [h] at he2; exact absurd he2 (by decide))
    · intro hnone
      exact ⟨s, by rw [hrun, hnone]⟩
  · intro cfg r s' hcfg hok
    rw [hrun, hcfg] at hok
    dsimp only at hok
    rw [M.run_bind, M.run_mWriteFile] at hok
    revert hok
    cases hw : writeFileAt s.tree (serverDir ++ ["server-entry.js"])
        (serverEntryContent cfg
          (jsonPairs (assets.map (fun a => (a.urlPath, diskPathOf a))))) with
    | error e => intro hok; exact absurd hok (by simp)
    | ok t =>
      intro hok
      dsimp only at hok
      rw [M.run_pure] at hok
      have hs' : s' = ⟨t, s.log ++ [serverDir ++ ["server-entry.js"]]⟩ := by
        have := congrArg (fun q => q.2) hok
        simpa using this.symm
      subst hs'
      refine ⟨readFileAt_writeFileAt_self _ _ _ _ hw, ?_, ?_⟩
      · unfold serverEntryContent
        repeat
          first
          | exact strContains_append_right _ _ _ (strContains_self _)
          | apply strContains_append_left
        try exact strContains_self _
      · unfold serverEntryContent
        repeat
          first
          | exact strContains_append_right _ _ _ (strContains_self _)
          | apply strContains_append_left
        try exact strContains_self _

/-- Witness: the configuration literal `{"env":{}}` is extracted from the
concrete server file and lands verbatim in the emitted bootstrap. -/
theorem c9_config_extraction_witness :
    readFileAt (M.run (emitServerEntry ["s"] []) ⟨c9Tree, []⟩).2.tree
        ["s", "server-entry.js"] =
      .ok (serverEntryContent "\x7b\"env\":\x7b\x7d\x7d" (jsonPairs [])) ∧
    strContains (serverEntryContent "\x7b\"env\":\x7b\x7d\x7d" (jsonPairs []))
      "\x7b\"env\":\x7b\x7d\x7d" = true ∧
    strContains (serverEntryContent "\x7b\"env\":\x7b\x7d\x7d" (jsonPairs []))
      "import \x7b assetMap \x7d from \"./assets.generated.js\";\n" = true :=
  (c9_config_extraction ["s"] [] ⟨c9Tree, []⟩
      "const nextConfig = \x7b\"env\":\x7b\x7d\x7d\nprocess.exit(0);\n" rfl).2
    "\x7b\"env\":\x7b\x7d\x7d" ["s"]
    (M.run (emitServerEntry ["s"] []) ⟨c9Tree, []⟩).2 rfl rfl

/-- **C2** The claim states that when `<distDir>/bun-compile-ctx.json` does
not exist, `generateEntryPoint` does not fail.  The code reads the build
context with an unguarded `readFileSync`, so on a tree that is valid in
every other respect but has no context file the run fails with the
read error — contradicting the spec and the CLI's own comment that the
context is optional. -/
theorem c2_missing_context_fails :
    (M.run (generateEntryPoint c2Opts) ⟨c2Tree, []⟩).1 = .error "ENOENT" ∧
      findServerDir c2Tree ["d", "standalone"] = .ok ["d", "standalone"] :=
  ⟨rfl, rfl⟩

end NextBunCompile
